import Mathlib

/-!
Verification development for the txt-to-epub structure-extraction engine.

Shallow embedding of `tasks/txt-to-epub-core/parser.py` (language detection,
table-of-contents removal, hierarchical segmentation, heading validation,
short-chapter consolidation) and of the integrity audit in
`tasks/txt-to-epub/word_count_validator.py` (`compare_content`).

A Python `str` is modelled as `List Char` (a sequence of Unicode code
points).  The regular expressions of the source are compiled by hand into a
small backtracking matcher (`RE` / `mat`) whose alternation order and greedy
quantifier semantics follow Python's `re` module; `finditer` scans for the
leftmost match and resumes at the match end, as `re.finditer` does.
-/

namespace TxtToEpub

abbrev Text := List Char

/-- Unicode whitespace as accepted by Python's `str.strip()` and the regex
class `\s` (ASCII whitespace plus the common Unicode space code points,
including U+3000, the ideographic space). -/
def isPySpace (c : Char) : Bool :=
  let n := c.toNat
  decide (n = 0x20 ∨ (0x9 ≤ n ∧ n ≤ 0xd) ∨ (0x1c ≤ n ∧ n ≤ 0x1f) ∨ n = 0x85 ∨
    n = 0xa0 ∨ n = 0x1680 ∨ (0x2000 ≤ n ∧ n ≤ 0x200a) ∨ n = 0x2028 ∨
    n = 0x2029 ∨ n = 0x202f ∨ n = 0x205f ∨ n = 0x3000)

/-- Strip from the right: drop trailing characters satisfying `p`. -/
def rstripWith (p : Char → Bool) (s : Text) : Text :=
  (s.reverse.dropWhile p).reverse

/-- Strip from both ends (Python `str.strip` with a character set). -/
def stripWith (p : Char → Bool) (s : Text) : Text :=
  rstripWith p (s.dropWhile p)

/-- Python `str.strip()` (default whitespace set). -/
def pyStrip (s : Text) : Text := stripWith isPySpace s

/-- Python `str.strip('\n\r')`. -/
def stripNlCr (s : Text) : Text :=
  stripWith (fun c => decide (c = '\n' ∨ c = '\r')) s

/-- Python `str.split('\n')`. -/
def splitNl : Text → List Text
  | [] => [[]]
  | c :: r =>
    let rest := splitNl r
    if c = '\n' then [] :: rest
    else
      match rest with
      | [] => [[c]]
      | l :: ls => (c :: l) :: ls

/-- Python `'\n'.join(...)`. -/
def joinNl : List Text → Text
  | [] => []
  | [l] => l
  | l :: l2 :: ls => l ++ '\n' :: joinNl (l2 :: ls)

/-- Python `hay.count(needle)` for a non-empty needle: number of
non-overlapping occurrences, scanning left to right. -/
def countSub (needle : Text) (hay : Text) : Nat :=
  match hay with
  | [] => 0
  | c :: t =>
    if needle ≠ [] ∧ needle.isPrefixOf (c :: t) then
      1 + countSub needle (List.drop (needle.length - 1) t)
    else
      countSub needle t
termination_by hay.length
decreasing_by
  · simp only [List.length_cons, List.length_drop]
    omega
  · simp only [List.length_cons]
    omega

/-- ASCII lower-casing, as used for the case-insensitive comparisons of the
source (`str.lower()`, `re.IGNORECASE`); non-ASCII characters are unaffected. -/
def asciiLower (c : Char) : Char :=
  if 0x41 ≤ c.toNat ∧ c.toNat ≤ 0x5a then Char.ofNat (c.toNat + 0x20) else c

def lowerText (s : Text) : Text := s.map asciiLower

/-- The CJK unified-ideograph block matched by the source's `[一-鿿]`. -/
def isCJK (c : Char) : Bool := decide (0x4e00 ≤ c.toNat ∧ c.toNat ≤ 0x9fff)

/-- The source's `[a-zA-Z]`. -/
def isLatinLetter (c : Char) : Bool :=
  let n := c.toNat
  decide ((0x61 ≤ n ∧ n ≤ 0x7a) ∨ (0x41 ≤ n ∧ n ≤ 0x5a))

def isAsciiDigit (c : Char) : Bool :=
  decide (0x30 ≤ c.toNat ∧ c.toNat ≤ 0x39)

/-- The two-valued language tag produced by `detect_language`. -/
inductive Lang where
  | chinese
  | english
deriving DecidableEq, Repr

def chineseKeywords : List Text :=
  ["第", "章", "节", "卷", "部", "篇", "序言", "前言", "目录"].map String.toList

def englishKeywords : List Text :=
  ["Chapter", "Section", "Part", "Book", "Volume", "Contents", "Preface",
    "Introduction"].map String.toList

/-- `detect_language` of `parser.py`.  The float comparison
`chinese_chars > english_chars * 0.5` is modelled exactly as the rational
comparison `2 * chinese_chars > english_chars` (exact for all counts below
2^53, where the Python float arithmetic is itself exact). -/
def detect_language (content : Text) : Lang :=
  if pyStrip content = [] then .chinese
  else
    let chinese_chars := (content.filter isCJK).length
    let english_chars := (content.filter isLatinLetter).length
    let chinese_keyword_count := (chineseKeywords.map (fun kw => countSub kw content)).sum
    let english_keyword_count :=
      (englishKeywords.map (fun kw => countSub (lowerText kw) (lowerText content))).sum
    if 2 * chinese_chars > english_chars ∨ chinese_keyword_count > english_keyword_count then
      .chinese
    else
      .english

/-! ### A small backtracking regex matcher

Each regular expression of the source is compiled by hand into an `RE`
term.  `mat` runs a continuation-passing backtracking matcher whose
backtracking order (ordered alternation, greedy quantifiers trying the
longest consumption first) coincides with Python's `re` engine on these
patterns. -/

inductive RE where
  /-- a single-character class, e.g. `[^\n]`, `\s`, `\d`, `[卷部篇]` -/
  | cls (p : Char → Bool)
  /-- a case-sensitive literal -/
  | lits (s : Text)
  /-- an ASCII-case-insensitive literal (`re.IGNORECASE`) -/
  | liti (s : Text)
  | seq (a b : RE)
  /-- ordered alternation `a|b` -/
  | alt (a b : RE)
  | eps
  /-- greedy option `a?` -/
  | opt (a : RE)
  /-- greedy star of a class, e.g. `\s*`, `[^\n]*` -/
  | starC (p : Char → Bool)
  /-- greedy plus of a class, e.g. `\s+`, `[^\n]+` -/
  | plusC (p : Char → Bool)
  /-- greedy bounded repetition of a class, e.g. `\d{1,3}`, `I{1,3}` -/
  | repC (p : Char → Bool) (lo hi : Nat)

/-- Greedy Kleene star of a character class, in continuation-passing style:
the longest consumption is tried first. -/
def starMat (p : Char → Bool) : Text → (Text → Option Text) → Option Text
  | [], k => k []
  | c :: r, k => if p c then (starMat p r k) <|> k (c :: r) else k (c :: r)

/-- Greedy bounded repetition `p{lo,hi}` of a character class. -/
def repMat (p : Char → Bool) : Nat → Nat → Text → (Text → Option Text) → Option Text
  | lo + 1, hi, s, k =>
    match s with
    | c :: r => if p c then repMat p lo (hi - 1) r k else none
    | [] => none
  | 0, 0, s, k => k s
  | 0, hi + 1, s, k =>
    match s with
    | c :: r => if p c then (repMat p 0 hi r k) <|> k (c :: r) else k (c :: r)
    | [] => k []

/-- ASCII-case-insensitive literal prefix: returns the remainder. -/
def prefixIMat : Text → Text → Option Text
  | [], s => some s
  | _ :: _, [] => none
  | a :: l, c :: s => if asciiLower a = asciiLower c then prefixIMat l s else none

/-- The backtracking matcher.  `mat re s k` consumes a prefix of `s`
matching `re` and passes the remainder to the continuation `k`, trying
consumptions in Python's backtracking order and returning the first
success. -/
def mat : RE → Text → (Text → Option Text) → Option Text
  | .cls p, s, k =>
    match s with
    | c :: r => if p c then k r else none
    | [] => none
  | .lits l, s, k => if l.isPrefixOf s then k (s.drop l.length) else none
  | .liti l, s, k =>
    match prefixIMat l s with
    | some r => k r
    | none => none
  | .seq a b, s, k => mat a s (fun r => mat b r k)
  | .alt a b, s, k => (mat a s k) <|> (mat b s k)
  | .eps, s, k => k s
  | .opt a, s, k => (mat a s k) <|> k s
  | .starC p, s, k => starMat p s k
  | .plusC p, s, k =>
    match s with
    | c :: r => if p c then starMat p r k else none
    | [] => none
  | .repC p lo hi, s, k => repMat p lo hi s k

def reSeq : List RE → RE
  | [] => .eps
  | [r] => r
  | r :: r2 :: rs => .seq r (reSeq (r2 :: rs))

def reAlts : List RE → RE
  | [] => .eps
  | [r] => r
  | r :: r2 :: rs => .alt r (reAlts (r2 :: rs))

def notNl (c : Char) : Bool := decide (c ≠ '\n')

/-- A raw regex match: `start` is `m.start()`, `gstart` the start of capture
group 1, `stop` is `m.end()` (for the source's patterns group 1 always
extends to the match end, any trailing look-ahead being zero-width). -/
structure MatchInfo where
  start : Nat
  gstart : Nat
  stop : Nat
deriving DecidableEq, Repr

/-- `content[a:b]` for `a ≤ b`. -/
def pySlice (content : Text) (a b : Nat) : Text := (content.drop a).take (b - a)

def group0 (content : Text) (m : MatchInfo) : Text := pySlice content m.start m.stop

def group1 (content : Text) (m : MatchInfo) : Text := pySlice content m.gstart m.stop

/-- The zero-width look-ahead `(?=\n|$)`. -/
def lookNlEnd : Text → Option Text
  | [] => some []
  | c :: r => if c = '\n' then some (c :: r) else none

/-- Capture group 1 of the anchored patterns: `\s*BODY\s*`. -/
def grpOf (body : RE) : RE :=
  RE.seq (.starC isPySpace) (.seq body (.starC isPySpace))

/-- Attempt the capture group `\s*BODY\s*(?=\n|$)` starting at absolute
position `g`; on success returns the match end. -/
def tryGroupAt (body : RE) (content : Text) (g : Nat) : Option Nat :=
  match mat (grpOf body) (content.drop g) lookNlEnd with
  | some rest => some (content.length - rest.length)
  | none => none

/-- Attempt an anchored-shape pattern `(?:^|\n)(\s*BODY\s*)(?=\n|$)` at
absolute position `i` of `content` (with `re.MULTILINE`, `^` matches at
position 0 and right after a newline; the `^` alternative is tried before
the `\n` alternative, as in the source patterns). -/
def tryViaNl (body : RE) (content : Text) (i : Nat) : Option MatchInfo :=
  if content.get? i = some '\n' then
    match tryGroupAt body content (i + 1) with
    | some stop => some ⟨i, i + 1, stop⟩
    | none => none
  else none

def tryAnchoredAt (body : RE) (content : Text) (i : Nat) : Option MatchInfo :=
  if i = 0 ∨ content.get? (i - 1) = some '\n' then
    match tryGroupAt body content i with
    | some stop => some ⟨i, i, stop⟩
    | none => tryViaNl body content i
  else tryViaNl body content i

/-- Attempt an unanchored pattern (a bare capturing group, as in the Chinese
volume/section patterns) at absolute position `i`. -/
def tryPlainAt (body : RE) (content : Text) (i : Nat) : Option MatchInfo :=
  match mat body (content.drop i) some with
  | some rest => some ⟨i, i, content.length - rest.length⟩
  | none => none

/-- `re.finditer`: scan start positions left to right, emit the leftmost
match and resume at its end. -/
def scanAux (tryAt : Nat → Option MatchInfo) (len : Nat) : Nat → Nat → List MatchInfo
  | _, 0 => []
  | i, fuel + 1 =>
    if i ≥ len then []
    else
      match tryAt i with
      | some m => m :: scanAux tryAt len (max m.stop (i + 1)) fuel
      | none => scanAux tryAt len (i + 1) fuel

def finditerAnchored (body : RE) (content : Text) : List MatchInfo :=
  scanAux (tryAnchoredAt body content) content.length 0 (content.length + 1)

def finditerPlain (body : RE) (content : Text) : List MatchInfo :=
  scanAux (tryPlainAt body content) content.length 0 (content.length + 1)

/-- `re.search` (existence only). -/
def searchPlain (body : RE) (s : Text) : Bool :=
  (List.range (s.length + 1)).any (fun i => (mat body (s.drop i) some).isSome)

/-- `pattern.search` for an anchored-shape pattern. -/
def searchAnchored (body : RE) (s : Text) : Bool :=
  ((List.range (s.length + 1)).any (fun i => (tryAnchoredAt body s i).isSome))

/-- `re.match` (anchored at position 0). -/
def matchAt (body : RE) (s : Text) : Bool := (mat body s some).isSome

/-! ### The pattern catalogs (`ChinesePatterns` / `EnglishPatterns`) -/

namespace ChinesePatterns

def TOC_KEYWORDS : List Text := ["目录"].map String.toList

def PREFACE_KEYWORDS : List Text := ["前言", "序", "序言"].map String.toList

def cnNumChar (c : Char) : Bool :=
  ("一二三四五六七八九十百千万壹贰叁肆伍陆柒捌玖拾佰仟萬".toList).contains c

/-- `([一二...萬]+|\d{1,3})` -/
def cnNum : RE := .alt (.plusC cnNumChar) (.repC isAsciiDigit 1 3)

def specialChapterKeywords : List Text :=
  ["番外", "番外篇", "外传", "特别篇", "插话", "后记", "尾声", "终章", "楔子",
    "序章"].map String.toList

/-- Body of `CHAPTER_PATTERN`:
`第(num)章\s+[^\n]+|(?:番外|番外篇|...)\s+[^\n]*` (the pattern's leading
`(?:^|\n)(\s*`, trailing `\s*)(?=\n|$)` are supplied by `tryAnchoredAt`). -/
def chapterBody : RE :=
  .alt
    (reSeq [.lits ("第".toList), cnNum, .lits ("章".toList), .plusC isPySpace,
      .plusC notNl])
    (reSeq [reAlts (specialChapterKeywords.map RE.lits), .plusC isPySpace,
      .starC notNl])

/-- `VOLUME_PATTERN` (unanchored): `(第(num)[卷部篇]\s+[^\n]*)`. -/
def volumeBody : RE :=
  reSeq [.lits ("第".toList), cnNum,
    .cls (fun c => decide (c = '卷' ∨ c = '部' ∨ c = '篇')),
    .plusC isPySpace, .starC notNl]

/-- `SECTION_PATTERN` (unanchored): `(第(num)节\s+[^\n]*)`. -/
def sectionBody : RE :=
  reSeq [.lits ("第".toList), cnNum, .lits ("节".toList), .plusC isPySpace,
    .starC notNl]

end ChinesePatterns

namespace EnglishPatterns

def TOC_KEYWORDS : List Text :=
  ["Contents", "Table of Contents", "TOC"].map String.toList

def PREFACE_KEYWORDS : List Text :=
  ["Preface", "Foreword", "Introduction", "Prologue"].map String.toList

def isChI (c : Char) : Bool := decide (asciiLower c = 'i')
def isChV (c : Char) : Bool := decide (asciiLower c = 'v')
def isChX (c : Char) : Bool := decide (asciiLower c = 'x')
def isChL (c : Char) : Bool := decide (asciiLower c = 'l')

def wordNumsToTwenty : List Text :=
  ["One", "Two", "Three", "Four", "Five", "Six", "Seven", "Eight", "Nine",
    "Ten", "Eleven", "Twelve", "Thirteen", "Fourteen", "Fifteen", "Sixteen",
    "Seventeen", "Eighteen", "Nineteen", "Twenty"].map String.toList

/-- `I{1,3}V?|VI{0,3}|IX|X{1,2}|\d{1,2}|One|...|Twenty` (volume numerals). -/
def volumeNum : RE :=
  reAlts ([reSeq [.repC isChI 1 3, .opt (.cls isChV)],
    reSeq [.cls isChV, .repC isChI 0 3],
    .liti ("IX".toList),
    .repC isChX 1 2,
    .repC isAsciiDigit 1 2] ++ wordNumsToTwenty.map RE.liti)

/-- `I{1,3}V?|VI{0,3}|IX|X{1,2}L?|\d{1,2}|One|...|Twenty|Thirty|Forty|Fifty`
(chapter numerals). -/
def chapterNum : RE :=
  reAlts ([reSeq [.repC isChI 1 3, .opt (.cls isChV)],
    reSeq [.cls isChV, .repC isChI 0 3],
    .liti ("IX".toList),
    reSeq [.repC isChX 1 2, .opt (.cls isChL)],
    .repC isAsciiDigit 1 2] ++
    (wordNumsToTwenty ++ ["Thirty", "Forty", "Fifty"].map String.toList).map RE.liti)

/-- `(?::\s*[^\n]+)?` -/
def colonTail : RE := .opt (reSeq [.lits (":".toList), .starC isPySpace, .plusC notNl])

/-- Body of `VOLUME_PATTERN`: `(?:Part|Book|Volume)\s+NUM(?::\s*[^\n]+)?`. -/
def volumeBody : RE :=
  reSeq [reAlts [.liti ("Part".toList), .liti ("Book".toList), .liti ("Volume".toList)],
    .plusC isPySpace, volumeNum, colonTail]

/-- Body of `CHAPTER_PATTERN`:
`(?:Chapter|Ch\.?|Chap\.?)\s+NUM(?::\s*[^\n]+)?`. -/
def chapterBody : RE :=
  reSeq [reAlts [.liti ("Chapter".toList),
      .seq (.liti ("Ch".toList)) (.opt (.lits (".".toList))),
      .seq (.liti ("Chap".toList)) (.opt (.lits (".".toList)))],
    .plusC isPySpace, chapterNum, colonTail]

/-- `\d{1,2}(?:\.\d+)?|One|...|Twenty` (section numerals). -/
def sectionNum : RE :=
  reAlts ([reSeq [.repC isAsciiDigit 1 2,
    .opt (.seq (.lits (".".toList)) (.plusC isAsciiDigit))]] ++
    wordNumsToTwenty.map RE.liti)

/-- Body of `SECTION_PATTERN`: `(?:Section|Sect\.?)\s+NUM(?::\s*[^\n]+)?`. -/
def sectionBody : RE :=
  reSeq [reAlts [.liti ("Section".toList),
      .seq (.liti ("Sect".toList)) (.opt (.lits (".".toList)))],
    .plusC isPySpace, sectionNum, colonTail]

/-- Body of `NUMBERED_SECTION_PATTERN`: `(\d+\.\d+)\s+[^\n]+` (the outer
`\s*` pieces and the `(?=\n|$)` look-ahead come from `tryAnchoredAt`; the
inner capture group 2 is never consulted by the source). -/
def numberedSectionBody : RE :=
  reSeq [.plusC isAsciiDigit, .lits (".".toList), .plusC isAsciiDigit,
    .plusC isPySpace, .plusC notNl]

end EnglishPatterns

/-! ### Per-language pattern selection -/

def tocKeywords : Lang → List Text
  | .chinese => ChinesePatterns.TOC_KEYWORDS
  | .english => EnglishPatterns.TOC_KEYWORDS

def prefaceKeywords : Lang → List Text
  | .chinese => ChinesePatterns.PREFACE_KEYWORDS
  | .english => EnglishPatterns.PREFACE_KEYWORDS

/-- `CHAPTER_PATTERN.finditer(content)` for the given language (both chapter
patterns are of the anchored shape `(?:^|\n)(\s*BODY\s*)(?=\n|$)`). -/
def chapterFinditer : Lang → Text → List MatchInfo
  | .chinese, content => finditerAnchored ChinesePatterns.chapterBody content
  | .english, content => finditerAnchored EnglishPatterns.chapterBody content

/-- `VOLUME_PATTERN.finditer(content)`: the Chinese volume pattern is an
unanchored bare group, the English one has the anchored shape. -/
def volumeFinditer : Lang → Text → List MatchInfo
  | .chinese, content => finditerPlain ChinesePatterns.volumeBody content
  | .english, content => finditerAnchored EnglishPatterns.volumeBody content

/-- `pattern.search(line)` over `chapter_patterns = [CHAPTER_PATTERN,
VOLUME_PATTERN]`, as used by `remove_table_of_contents`. -/
def searchChapterOrVolume (language : Lang) (line : Text) : Bool :=
  match language with
  | .chinese =>
    searchAnchored ChinesePatterns.chapterBody line ||
      searchPlain ChinesePatterns.volumeBody line
  | .english =>
    searchAnchored EnglishPatterns.chapterBody line ||
      searchAnchored EnglishPatterns.volumeBody line

/-! ### Data model (`data_structures.py`) -/

structure Section where
  title : Text
  content : Text
deriving DecidableEq, Repr

structure Chapter where
  title : Text
  content : Text
  sections : List Section
deriving DecidableEq, Repr

structure Volume where
  title : Option Text
  chapters : List Chapter
deriving DecidableEq, Repr

instance : Inhabited Chapter := ⟨⟨[], [], []⟩⟩

instance : Inhabited Volume := ⟨⟨none, []⟩⟩

/-- Modelled from the spec: `parser_config.py` is not part of the sources at
hand (only its importers and tests are).  Per §6 of the spec the config
exposes `enable_chapter_validation : bool`, `enable_length_validation :
bool` and `min_chapter_length : integer`; the unit tests pin the defaults
to `True`, `True` and `500`. -/
structure ParserConfig where
  enable_chapter_validation : Bool := true
  enable_length_validation : Bool := true
  min_chapter_length : Nat := 500
deriving DecidableEq, Repr

def DEFAULT_CONFIG : ParserConfig := {}

/-! ### Fixed strings of the parser -/

def emptySectionContent : Lang → Text
  | .chinese => "此节内容为空。".toList
  | .english => "This section is empty.".toList

def emptyChapterContent : Lang → Text
  | .chinese => "此章节内容为空。".toList
  | .english => "This chapter is empty.".toList

def sectionPrefaceTitle : Lang → Text
  | .chinese => "章节序言".toList
  | .english => "Chapter Preface".toList

def chapterPrefaceTitle : Lang → Text
  | .chinese => "前言".toList
  | .english => "Preface".toList

def volumePrefaceTitle : Lang → Text
  | .chinese => "序言".toList
  | .english => "Preface".toList

def defaultChapterTitle : Lang → Text
  | .chinese => "正文".toList
  | .english => "Content".toList

def unknownVolumeTitle : Lang → Text
  | .chinese => "未知内容".toList
  | .english => "Unknown Content".toList

def unknownVolumeContent : Lang → Text
  | .chinese => "无法解析文档结构，请检查文档格式。".toList
  | .english => "Unable to parse document structure. Please check document format.".toList

/-! ### `is_valid_chapter_title` -/

/-- `[在如见到自从正前后于从到至]第.{0,5}章` -/
def cnInlineRefRE : RE :=
  reSeq [.cls (fun c => ("在如见到自从正前后于从到至".toList).contains c),
    .lits ("第".toList), .repC notNl 0 5, .lits ("章".toList)]

/-- `[，,、；;]第.{0,5}章` -/
def cnPunctRefRE : RE :=
  reSeq [.cls (fun c => ("，,、；;".toList).contains c),
    .lits ("第".toList), .repC notNl 0 5, .lits ("章".toList)]

/-- `^\s*[结结束时中里]` (the class lists `结` twice in the source) -/
def cnContinuationRE : RE :=
  .seq (.starC isPySpace) (.cls (fun c => ("结束时中里".toList).contains c))

/-- `^\s*[，,]` -/
def cnCommaRE : RE :=
  .seq (.starC isPySpace) (.cls (fun c => ("，,".toList).contains c))

/-- The regex class `\w` (approximated: ASCII alphanumerics, underscore, and
any non-ASCII non-whitespace code point; the inputs of interest contain only
ASCII words and CJK ideographs, on which this is exact). -/
def isWordChar (c : Char) : Bool :=
  isLatinLetter c || isAsciiDigit c || decide (c = '_') ||
    (decide (0x80 ≤ c.toNat) && !isPySpace c)

/-- `(?:in|see|from|at|to|of|for)\s+Chapter\s+\w+` with `re.IGNORECASE` -/
def enInlineRefRE : RE :=
  reSeq [reAlts (["in", "see", "from", "at", "to", "of", "for"].map
      (fun w => RE.liti w.toList)),
    .plusC isPySpace, .liti ("Chapter".toList), .plusC isPySpace,
    .plusC isWordChar]

/-- `^\s*(?:ends?|of|in|at)\s` with `re.IGNORECASE` -/
def enContinuationRE : RE :=
  reSeq [.starC isPySpace,
    reAlts [.seq (.liti ("end".toList)) (.opt (.liti ("s".toList))),
      .liti ("of".toList), .liti ("in".toList), .liti ("at".toList)],
    .cls isPySpace]

/-- Python `text[-n:]`. -/
def lastN (n : Nat) (l : Text) : Text := l.drop (l.length - n)

/-- `content.rfind('\n', 0, b)`: index of the last newline strictly before
position `b`, if any. -/
def rfindNlBefore (content : Text) (b : Nat) : Option Nat :=
  let pre := content.take b
  match pre.reverse.findIdx? (fun c => c = '\n') with
  | some j => some (pre.length - 1 - j)
  | none => none

/-- `is_valid_chapter_title` of `parser.py`, for a match `m` of the chapter
pattern against `content`. -/
def is_valid_chapter_title (m : MatchInfo) (content : Text) (language : Lang) : Bool :=
  let match_text := pyStrip (group0 content m)
  -- 1. title too long
  if match_text.length > 100 then false
  else
    let context_before := pySlice content (m.start - 50) m.start
    let context_after := pySlice content m.stop (m.stop + 50)
    let inlineRef : Bool :=
      match language with
      | .chinese =>
        searchPlain cnInlineRefRE (lastN 20 context_before ++ match_text.take 10) ||
          searchPlain cnPunctRefRE (lastN 10 context_before ++ match_text.take 10)
      | .english =>
        searchPlain enInlineRefRE (lastN 30 context_before ++ match_text.take 20)
    if inlineRef then false
    else
      let continuation : Bool :=
        match language with
        | .chinese =>
          matchAt cnContinuationRE context_after || matchAt cnCommaRE context_after
        | .english => matchAt enContinuationRE context_after
      if continuation then false
      else
        -- 4. text before the match on the line where the match starts
        let line_start :=
          match rfindNlBefore content m.start with
          | some j => j + 1
          | none => 0
        let text_before_match := pySlice content line_start m.start
        if pyStrip text_before_match ≠ [] then false else true

/-! ### `remove_table_of_contents` -/

/-- A stripped line marking the start of a table of contents:
`stripped_line in toc_keywords or any(kw.lower() == stripped_line.lower())`. -/
def isTocKeywordLine (kws : List Text) (s : Text) : Bool :=
  kws.contains s || kws.any (fun kw => lowerText kw == lowerText s)

/-- `any(keyword.lower() == stripped_line.lower() for keyword in
preface_keywords)`. -/
def isPrefaceLine (kws : List Text) (s : Text) : Bool :=
  kws.any (fun kw => lowerText kw == lowerText s)

/-- The line scan of `remove_table_of_contents` looking for the TOC start
and end; returns `(toc_start, toc_end)` (`none` standing for `-1`).  `i` is
the absolute index of the first line of `rest`. -/
def tocScan (language : Lang) : List Text → Nat → Option Nat → Option Nat × Option Nat
  | [], _, ts => (ts, none)
  | line :: rest, i, ts =>
    let s := pyStrip line
    if isTocKeywordLine (tocKeywords language) s then
      tocScan language rest (i + 1) (some i)
    else
      match ts with
      | none => tocScan language rest (i + 1) none
      | some _ =>
        if s = [] then
          match ((rest.take 4).map pyStrip).find? (fun l => !l.isEmpty) with
          | some nextLine =>
            if nextLine.length > 30 ∧ searchChapterOrVolume language nextLine = false then
              (ts, some i)
            else tocScan language rest (i + 1) ts
          | none => tocScan language rest (i + 1) ts
        else if s.length > 50 then
          if searchChapterOrVolume language s = false ∧
              isPrefaceLine (prefaceKeywords language) s = false then
            (ts, some (i - 1))
          else tocScan language rest (i + 1) ts
        else tocScan language rest (i + 1) ts

/-- The fallback scan of `remove_table_of_contents` when only a TOC start
was found: the first line from `toc_start + 1` on that is a chapter/volume
heading or a preface keyword. -/
def tocFallback (language : Lang) : List Text → Nat → Option Nat
  | [], _ => none
  | line :: rest, i =>
    let s := pyStrip line
    if searchChapterOrVolume language s then some i
    else if isPrefaceLine (prefaceKeywords language) s then some i
    else tocFallback language rest (i + 1)

/-- Dispatch on the `(toc_start, toc_end)` result of the line scan: the
removal performed by `remove_table_of_contents`. -/
def applyTocRemoval (content : Text) (lines : List Text) (language : Lang) :
    Option Nat × Option Nat → Text
  | (some ts, some te) => joinNl (lines.take ts ++ lines.drop (te + 1))
  | (some ts, none) =>
    match tocFallback language (lines.drop (ts + 1)) (ts + 1) with
    | some i => joinNl (lines.take ts ++ lines.drop i)
    | none => content
  | (none, _) => content

/-- `remove_table_of_contents` of `parser.py` (`language = none` models the
Python default `language=None`, triggering auto-detection). -/
def remove_table_of_contents (content : Text) (language : Option Lang) : Text :=
  if pyStrip content = [] then content
  else
    applyTocRemoval content (splitNl content) (language.getD (detect_language content))
      (tocScan (language.getD (detect_language content)) (splitNl content) 0 none)

/-! ### `parse_sections_from_content` -/

/-- The section matches: the Chinese pattern, or for English the first of
`[SECTION_PATTERN, NUMBERED_SECTION_PATTERN]` producing any match. -/
def sectionMatches : Lang → Text → List MatchInfo
  | .chinese, content => finditerPlain ChinesePatterns.sectionBody content
  | .english, content =>
    let m1 := finditerAnchored EnglishPatterns.sectionBody content
    if m1 ≠ [] then m1
    else finditerAnchored EnglishPatterns.numberedSectionBody content

/-- The per-match loop of `parse_sections_from_content`, carrying the set of
already seen titles. -/
def sectionsGo (content : Text) (language : Lang) (seen : List Text) :
    List MatchInfo → List Section
  | [] => []
  | m :: rest =>
    let e := match rest with | m2 :: _ => m2.start | [] => content.length
    let title := pyStrip (group1 content m)
    let sc := stripNlCr (pySlice content m.stop e)
    if title ≠ [] ∧ title ∉ seen then
      let sc2 := if pyStrip sc = [] then emptySectionContent language else sc
      ⟨title, sc2⟩ :: sectionsGo content language (title :: seen) rest
    else sectionsGo content language seen rest

/-- The optional leading "chapter preface" section (untitled lead-in text
before the first section heading). -/
def sectionPrefaceOf (content : Text) (language : Lang) (m0 : MatchInfo) : List Section :=
  if 0 < m0.start ∧ pyStrip (content.take m0.start) ≠ [] then
    [⟨sectionPrefaceTitle language, pyStrip (content.take m0.start)⟩]
  else []

/-- `parse_sections_from_content` of `parser.py`. -/
def parse_sections_from_content (content : Text) (language : Lang) : List Section :=
  if pyStrip content = [] then []
  else
    match sectionMatches language content with
    | [] => []
    | m0 :: rest =>
      sectionPrefaceOf content language m0 ++ sectionsGo content language [] (m0 :: rest)

/-! ### `parse_chapters_from_content` -/

/-- The per-match loop of `parse_chapters_from_content`. -/
def chaptersGo (content : Text) (language : Lang) (seen : List Text) :
    List MatchInfo → List Chapter
  | [] => []
  | m :: rest =>
    let e := match rest with | m2 :: _ => m2.start | [] => content.length
    let title := pyStrip (group1 content m)
    let cc := stripNlCr (pySlice content m.stop e)
    if title ≠ [] ∧ title ∉ seen then
      let secs := parse_sections_from_content cc language
      if secs ≠ [] then
        ⟨title, [], secs⟩ :: chaptersGo content language (title :: seen) rest
      else
        let cc2 := if pyStrip cc = [] then emptyChapterContent language else cc
        ⟨title, cc2, []⟩ :: chaptersGo content language (title :: seen) rest
    else chaptersGo content language seen rest

/-- The chapter matches surviving the optional heading validation. -/
def chapterMatchesOf (content : Text) (language : Lang) (config : ParserConfig) :
    List MatchInfo :=
  if config.enable_chapter_validation then
    (chapterFinditer language content).filter
      (fun m => is_valid_chapter_title m content language)
  else chapterFinditer language content

/-- The optional leading "front matter" chapter (text before the first valid
chapter heading). -/
def chapterPrefaceOf (content : Text) (language : Lang) (m0 : MatchInfo) : List Chapter :=
  if 0 < m0.start ∧ pyStrip (content.take m0.start) ≠ [] then
    if parse_sections_from_content (pyStrip (content.take m0.start)) language ≠ [] then
      [⟨chapterPrefaceTitle language, [],
        parse_sections_from_content (pyStrip (content.take m0.start)) language⟩]
    else [⟨chapterPrefaceTitle language, pyStrip (content.take m0.start), []⟩]
  else []

/-- `parse_chapters_from_content` of `parser.py`. -/
def parse_chapters_from_content (content : Text) (language : Lang)
    (config : ParserConfig) : List Chapter :=
  if pyStrip content = [] then []
  else
    match chapterMatchesOf content language config with
    | [] => []
    | m0 :: rest =>
      chapterPrefaceOf content language m0 ++ chaptersGo content language [] (m0 :: rest)

/-! ### `validate_and_merge_chapters` -/

/-- `total_content = chapter.content + all sections' content`. -/
def totalContent (ch : Chapter) : Text :=
  ch.content ++ (ch.sections.map Section.content).flatten

/-- Rewrite the last element of a list (Python `valid_chapters[-1] = ...`). -/
def modifyLast (f : Chapter → Chapter) : List Chapter → List Chapter
  | [] => []
  | [c] => [f c]
  | c :: c2 :: cs => c :: modifyLast f (c2 :: cs)

/-- Merging a short chapter into the previous accepted chapter:
`merged_content += "\n\n{title}\n{content}"` (or without the leading blank
line when the previous content is empty). -/
def mergeShort (ch : Chapter) (last : Chapter) : Chapter :=
  ⟨last.title,
    if last.content ≠ [] then
      last.content ++ '\n' :: '\n' :: (ch.title ++ '\n' :: ch.content)
    else ch.title ++ '\n' :: ch.content,
    last.sections⟩

/-- `accumulated_title or default` (Python truthiness: `None` and the empty
string both fall back to the synthetic preface title). -/
def pyOrTitle (accT : Option Text) (language : Lang) : Text :=
  match accT with
  | some t => if t = [] then chapterPrefaceTitle language else t
  | none => chapterPrefaceTitle language

/-- Flushing the accumulated short chapters as a synthetic preface chapter. -/
def flushChapter (language : Lang) (accC : Text) (accT : Option Text) : Chapter :=
  ⟨pyOrTitle accT language, pyStrip accC, []⟩

/-- The chapter loop of `validate_and_merge_chapters`: `valid` is
`valid_chapters`, `accC`/`accT` are `accumulated_content` /
`accumulated_title` (`accC = []` models the empty string, `accT = none`
models `None`). -/
def vamAux (language : Lang) (minLen : Nat) :
    List Chapter → List Chapter → Text → Option Text → List Chapter
  | [], valid, accC, accT =>
    if accC ≠ [] then valid ++ [flushChapter language accC accT] else valid
  | ch :: rest, valid, accC, accT =>
    let contentLength := (pyStrip (totalContent ch)).length
    if contentLength < minLen then
      if valid = [] ∧ accC = [] then
        vamAux language minLen rest valid (ch.title ++ '\n' :: '\n' :: ch.content)
          (some ch.title)
      else if valid ≠ [] then
        vamAux language minLen rest (modifyLast (mergeShort ch) valid) accC accT
      else
        vamAux language minLen rest valid
          (accC ++ '\n' :: '\n' :: (ch.title ++ '\n' :: ch.content)) accT
    else
      if accC ≠ [] then
        vamAux language minLen rest
          (valid ++ [flushChapter language accC accT, ch]) [] none
      else
        vamAux language minLen rest (valid ++ [ch]) accC accT

/-- `validate_and_merge_chapters` of `parser.py`. -/
def validate_and_merge_chapters (chapters : List Chapter) (language : Lang)
    (minLen : Nat) : List Chapter :=
  if chapters = [] then chapters
  else vamAux language minLen chapters [] [] none

/-! ### `parse_hierarchical_content` -/

/-- Chapter extraction followed by the optional length-validation pass, as
performed at each use site of `parse_chapters_from_content` inside
`parse_hierarchical_content`. -/
def chaptersWithValidation (content : Text) (language : Lang)
    (config : ParserConfig) : List Chapter :=
  let chapters := parse_chapters_from_content content language config
  if config.enable_length_validation then
    validate_and_merge_chapters chapters language config.min_chapter_length
  else chapters

/-- The loop over the volume matches of `parse_hierarchical_content`,
carrying the set of already seen volume titles. -/
def volumesGo (content : Text) (language : Lang) (config : ParserConfig)
    (seen : List Text) : List MatchInfo → List Volume
  | [] => []
  | m :: rest =>
    let vend := match rest with | m2 :: _ => m2.start | [] => content.length
    let vtitle := pyStrip (group1 content m)
    let vcontent := pySlice content m.stop vend
    if vtitle ≠ [] ∧ vtitle ∉ seen then
      let chapters := chaptersWithValidation vcontent language config
      if chapters ≠ [] then
        ⟨some vtitle, chapters⟩ :: volumesGo content language config (vtitle :: seen) rest
      else if pyStrip vcontent ≠ [] then
        ⟨some vtitle, [⟨defaultChapterTitle language, pyStrip vcontent, []⟩]⟩ ::
          volumesGo content language config (vtitle :: seen) rest
      else volumesGo content language config (vtitle :: seen) rest
    else volumesGo content language config seen rest

/-- The optional implicit leading volume (front matter before the first
volume heading). -/
def volumePrefaceOf (content : Text) (language : Lang) (config : ParserConfig)
    (m0 : MatchInfo) : List Volume :=
  if 0 < m0.start ∧ pyStrip (content.take m0.start) ≠ [] then
    if chaptersWithValidation (content.take m0.start) language config ≠ [] then
      [⟨none, chaptersWithValidation (content.take m0.start) language config⟩]
    else [⟨none, [⟨volumePrefaceTitle language, pyStrip (content.take m0.start), []⟩]⟩]
  else []

/-- The volume list built by `parse_hierarchical_content` from the text left
after TOC removal (before the final never-empty fallback). -/
def volumesOfAux (content : Text) (language : Lang) (config : ParserConfig) :
    List Volume :=
  match volumeFinditer language content with
  | [] =>
    if chaptersWithValidation content language config ≠ [] then
      [⟨none, chaptersWithValidation content language config⟩]
    else [⟨none, [⟨defaultChapterTitle language, pyStrip content, []⟩]⟩]
  | m0 :: rest =>
    volumePrefaceOf content language config m0 ++
      volumesGo content language config [] (m0 :: rest)

/-- The volume list including the final "unable to parse" fallback. -/
def volumesOf (content : Text) (language : Lang) (config : ParserConfig) :
    List Volume :=
  if volumesOfAux content language config = [] then
    [⟨none, [⟨unknownVolumeTitle language, unknownVolumeContent language, []⟩]⟩]
  else volumesOfAux content language config

/-- `parse_hierarchical_content` of `parser.py`. -/
def parse_hierarchical_content (content : Text) (config : ParserConfig) : List Volume :=
  if pyStrip content = [] then
    [⟨none, [⟨"Empty Content".toList,
      "This document is empty or cannot be parsed.".toList, []⟩]⟩]
  else
    volumesOf (remove_table_of_contents content (some (detect_language content)))
      (detect_language content) config

/-! ### The integrity audit (`word_count_validator.py`, `compare_content`) -/

/-- The character statistics produced by `count_characters` and consumed by
`compare_content`. -/
structure CharStats where
  chinese_chars : Nat
  english_chars : Nat
  punctuation : Nat
  total_chars : Nat
deriving DecidableEq, Repr

/-- `calc_loss_rate` of `compare_content`: `(original - converted) / original
* 100`, and `0.0` when `original == 0`.  The Python float arithmetic is
modelled exactly over `ℚ`. -/
def calc_loss_rate (original converted : Nat) : ℚ :=
  if original = 0 then 0 else ((original : ℚ) - converted) / original * 100

/-- The `is_valid` verdict computed by `compare_content` from the original
and converted statistics (`0.01` is `1/100`). -/
def compare_content_valid (o c : CharStats) : Bool :=
  decide (calc_loss_rate o.chinese_chars c.chinese_chars ≤ 1 ∧
    calc_loss_rate o.english_chars c.english_chars ≤ 2 ∧
    calc_loss_rate o.total_chars c.total_chars ≤ 1 ∧
    (c.chinese_chars : ℚ) - o.chinese_chars ≥ -((o.chinese_chars : ℚ) * (1 / 100)))

/-! ## Theorems -/

/-! ### Plumbing lemmas about `splitNl` / `joinNl` -/

theorem splitNl_ne_nil (s : Text) : splitNl s ≠ [] := by
  cases s with
  | nil => simp [splitNl]
  | cons c r =>
    simp only [splitNl]
    split
    · simp
    · split <;> simp

theorem joinNl_splitNl (s : Text) : joinNl (splitNl s) = s := by
  induction s with
  | nil => rfl
  | cons c r ih =>
    simp only [splitNl]
    by_cases hc : c = '\n'
    · subst hc
      simp only [if_pos rfl]
      rcases h : splitNl r with _ | ⟨l, ls⟩
      · exact absurd h (splitNl_ne_nil r)
      · rw [h] at ih
        simp only [joinNl]
        rw [ih]
        rfl
    · rw [if_neg hc]
      rcases h : splitNl r with _ | ⟨l, ls⟩
      · exact absurd h (splitNl_ne_nil r)
      · rw [h] at ih
        cases ls with
        | nil => simpa [joinNl] using congrArg (c :: ·) ih
        | cons l2 ls2 => simpa [joinNl] using congrArg (c :: ·) ih

/-! ### C5: `detect_language` -/

/-- C5: for every input text, `detect_language` returns `chinese` iff the
CJK-ideograph count exceeds half the Latin-letter count or the Chinese
keyword occurrences outnumber the English keyword occurrences, with empty or
whitespace-only input defaulting to `chinese`; and it always returns one of
exactly the two values `chinese` / `english` with no error path. -/
theorem C5_detect_language_decision (content : Text) :
    (detect_language content = Lang.chinese ∨ detect_language content = Lang.english) ∧
    (detect_language content = Lang.chinese ↔
      (pyStrip content = [] ∨
        2 * (content.filter isCJK).length > (content.filter isLatinLetter).length ∨
        (chineseKeywords.map (fun kw => countSub kw content)).sum >
          (englishKeywords.map (fun kw => countSub (lowerText kw) (lowerText content))).sum)) := by
  by_cases h : pyStrip content = []
  · simp [detect_language, h]
  · by_cases h2 : 2 * (content.filter isCJK).length > (content.filter isLatinLetter).length ∨
        (chineseKeywords.map (fun kw => countSub kw content)).sum >
          (englishKeywords.map (fun kw => countSub (lowerText kw) (lowerText content))).sum
    · simp [detect_language, h, h2]
    · simp [detect_language, h, h2]

/-! ### C6: the integrity audit verdict -/

/-- C6: `compare_content` declares a conversion valid iff the Chinese loss
rate is at most 1%, the English loss rate at most 2%, the total loss rate at
most 1% and the Chinese delta at least −1% of the original Chinese count,
where a loss rate over a zero original count is 0 (here phrased
division-free over `ℤ`); as a total function the audit has no error path. -/
theorem C6_compare_content_valid_iff (o c : CharStats) :
    compare_content_valid o c = true ↔
      ((o.chinese_chars = 0 ∨
          100 * ((o.chinese_chars : ℤ) - c.chinese_chars) ≤ o.chinese_chars) ∧
        (o.english_chars = 0 ∨
          100 * ((o.english_chars : ℤ) - c.english_chars) ≤ 2 * o.english_chars) ∧
        (o.total_chars = 0 ∨
          100 * ((o.total_chars : ℤ) - c.total_chars) ≤ o.total_chars) ∧
        100 * ((c.chinese_chars : ℤ) - o.chinese_chars) ≥ -(o.chinese_chars : ℤ)) := by
  have loss_iff : ∀ (a b : Nat) (r : ℚ), 0 ≤ r →
      (calc_loss_rate a b ≤ r ↔ (a = 0 ∨ 100 * ((a : ℤ) - b) ≤ r * a)) := by
    intro a b r hr
    unfold calc_loss_rate
    by_cases ha : a = 0
    · simp [ha, hr]
    · rw [if_neg ha]
      have hapos : (0 : ℚ) < a := by
        exact_mod_cast Nat.pos_of_ne_zero ha
      rw [div_mul_eq_mul_div, div_le_iff₀ hapos]
      constructor
      · intro hle
        refine Or.inr ?_
        have : ((100 * ((a : ℤ) - b) : ℤ) : ℚ) ≤ ((r * a : ℚ)) := by
          push_cast
          linarith
        exact_mod_cast this
      · rintro (h0 | hle)
        · exact absurd h0 ha
        · have : ((100 * ((a : ℤ) - b) : ℤ) : ℚ) ≤ ((r * a : ℚ)) := by
            exact_mod_cast hle
          push_cast at this
          linarith
  have delta_iff :
      ((c.chinese_chars : ℚ) - o.chinese_chars ≥ -((o.chinese_chars : ℚ) * (1 / 100))) ↔
        100 * ((c.chinese_chars : ℤ) - o.chinese_chars) ≥ -(o.chinese_chars : ℤ) := by
    constructor
    · intro h
      have : ((-(o.chinese_chars : ℤ) : ℤ) : ℚ) ≤ ((100 * ((c.chinese_chars : ℤ) - o.chinese_chars) : ℤ) : ℚ) := by
        push_cast
        linarith
      exact_mod_cast this
    · intro h
      have : ((-(o.chinese_chars : ℤ) : ℤ) : ℚ) ≤ ((100 * ((c.chinese_chars : ℤ) - o.chinese_chars) : ℤ) : ℚ) := by
        exact_mod_cast h
      push_cast at this
      linarith
  unfold compare_content_valid
  rw [decide_eq_true_eq]
  rw [loss_iff _ _ 1 (by norm_num), loss_iff _ _ 2 (by norm_num),
    loss_iff _ _ 1 (by norm_num), delta_iff]
  constructor
  · rintro ⟨h1, h2, h3, h4⟩
    refine ⟨?_, ?_, ?_, h4⟩
    · rcases h1 with h | h
      · exact Or.inl h
      · refine Or.inr ?_
        have : ((100 * ((o.chinese_chars : ℤ) - c.chinese_chars) : ℤ) : ℚ) ≤
            ((o.chinese_chars : ℤ) : ℚ) := by
          have := h
          push_cast at this ⊢
          linarith
        exact_mod_cast this
    · rcases h2 with h | h
      · exact Or.inl h
      · refine Or.inr ?_
        have : ((100 * ((o.english_chars : ℤ) - c.english_chars) : ℤ) : ℚ) ≤
            (((2 : ℤ) * o.english_chars : ℤ) : ℚ) := by
          have := h
          push_cast at this ⊢
          linarith
        exact_mod_cast this
    · rcases h3 with h | h
      · exact Or.inl h
      · refine Or.inr ?_
        have : ((100 * ((o.total_chars : ℤ) - c.total_chars) : ℤ) : ℚ) ≤
            ((o.total_chars : ℤ) : ℚ) := by
          have := h
          push_cast at this ⊢
          linarith
        exact_mod_cast this
  · rintro ⟨h1, h2, h3, h4⟩
    refine ⟨?_, ?_, ?_, h4⟩
    · rcases h1 with h | h
      · exact Or.inl h
      · refine Or.inr ?_
        have : ((100 * ((o.chinese_chars : ℤ) - c.chinese_chars) : ℤ) : ℚ) ≤
            ((o.chinese_chars : ℤ) : ℚ) := by
          exact_mod_cast h
        push_cast at this ⊢
        linarith
    · rcases h2 with h | h
      · exact Or.inl h
      · refine Or.inr ?_
        have : ((100 * ((o.english_chars : ℤ) - c.english_chars) : ℤ) : ℚ) ≤
            (((2 : ℤ) * o.english_chars : ℤ) : ℚ) := by
          exact_mod_cast h
        push_cast at this ⊢
        linarith
    · rcases h3 with h | h
      · exact Or.inl h
      · refine Or.inr ?_
        have : ((100 * ((o.total_chars : ℤ) - c.total_chars) : ℤ) : ℚ) ≤
            ((o.total_chars : ℤ) : ℚ) := by
          exact_mod_cast h
        push_cast at this ⊢
        linarith

/-! ### C7 / C8: `remove_table_of_contents` -/

theorem tocScan_bounds (language : Lang) :
    ∀ (rest : List Text) (i : Nat) (ts0 : Option Nat),
      (∀ t, ts0 = some t → t < i) →
      ∀ ts te, tocScan language rest i ts0 = (some ts, some te) →
        ts < te + 1 ∧ te < i + rest.length := by
  intro rest
  induction rest with
  | nil =>
    intro i ts0 h ts te heq
    simp [tocScan] at heq
  | cons line rest ih =>
    intro i ts0 h ts te heq
    by_cases hkw : isTocKeywordLine (tocKeywords language) (pyStrip line) = true
    · simp only [tocScan] at heq
      rw [if_pos hkw] at heq
      have := ih (i + 1) (some i) (fun t ht => by cases ht; omega) ts te heq
      simp only [List.length_cons]
      omega
    · cases ts0 with
      | none =>
        simp only [tocScan] at heq
        rw [if_neg hkw] at heq
        have := ih (i + 1) none (fun t ht => by cases ht) ts te heq
        simp only [List.length_cons]
        omega
      | some t0 =>
        have ht0 : t0 < i := h t0 rfl
        have hkeep : ∀ t, (some t0 : Option Nat) = some t → t < i + 1 := by
          intro t ht
          cases ht
          omega
        simp only [tocScan] at heq
        rw [if_neg hkw] at heq
        by_cases hblank : pyStrip line = []
        · rw [if_pos hblank] at heq
          rcases hfind : ((rest.take 4).map pyStrip).find? (fun l => !l.isEmpty)
            with _ | nextLine
          · simp only [hfind] at heq
            have := ih (i + 1) (some t0) hkeep ts te heq
            simp only [List.length_cons]
            omega
          · simp only [hfind] at heq
            by_cases hcond : nextLine.length > 30 ∧
                searchChapterOrVolume language nextLine = false
            · rw [if_pos hcond] at heq
              simp only [Prod.mk.injEq, Option.some.injEq] at heq
              obtain ⟨hts, hte⟩ := heq
              simp only [List.length_cons]
              omega
            · rw [if_neg hcond] at heq
              have := ih (i + 1) (some t0) hkeep ts te heq
              simp only [List.length_cons]
              omega
        · rw [if_neg hblank] at heq
          by_cases h50 : (pyStrip line).length > 50
          · rw [if_pos h50] at heq
            by_cases hcond2 : searchChapterOrVolume language (pyStrip line) = false ∧
                isPrefaceLine (prefaceKeywords language) (pyStrip line) = false
            · rw [if_pos hcond2] at heq
              simp only [Prod.mk.injEq, Option.some.injEq] at heq
              obtain ⟨hts, hte⟩ := heq
              simp only [List.length_cons]
              omega
            · rw [if_neg hcond2] at heq
              have := ih (i + 1) (some t0) hkeep ts te heq
              simp only [List.length_cons]
              omega
          · rw [if_neg h50] at heq
            have := ih (i + 1) (some t0) hkeep ts te heq
            simp only [List.length_cons]
            omega

theorem tocFallback_bounds (language : Lang) :
    ∀ (rest : List Text) (i0 i : Nat), tocFallback language rest i0 = some i →
      i0 ≤ i ∧ i < i0 + rest.length := by
  intro rest
  induction rest with
  | nil =>
    intro i0 i heq
    simp [tocFallback] at heq
  | cons line rest ih =>
    intro i0 i heq
    simp only [tocFallback] at heq
    split at heq
    · cases heq
      simp only [List.length_cons]
      omega
    · split at heq
      · cases heq
        simp only [List.length_cons]
        omega
      · have := ih (i0 + 1) i heq
        simp only [List.length_cons]
        omega

theorem tocScan_no_kw (language : Lang) :
    ∀ (rest : List Text) (i : Nat),
      (∀ line ∈ rest, isTocKeywordLine (tocKeywords language) (pyStrip line) = false) →
      tocScan language rest i none = (none, none) := by
  intro rest
  induction rest with
  | nil => intro i _; rfl
  | cons line rest ih =>
    intro i h
    have hline := h line (List.mem_cons_self line rest)
    simp only [tocScan, hline, Bool.false_eq_true, if_false]
    exact ih (i + 1) (fun l hl => h l (List.mem_cons_of_mem line hl))

/-- Shared helper: when no line of the input is a TOC keyword line (for the
pattern set of the language that `remove_table_of_contents` would use), the
text passes through unchanged. -/
theorem remove_toc_of_no_kw (content : Text) (language : Option Lang)
    (h : ∀ line ∈ splitNl content,
      isTocKeywordLine (tocKeywords (language.getD (detect_language content)))
        (pyStrip line) = false) :
    remove_table_of_contents content language = content := by
  unfold remove_table_of_contents
  by_cases hs : pyStrip content = []
  · simp [hs]
  · rw [if_neg hs]
    rw [tocScan_no_kw (language.getD (detect_language content)) (splitNl content) 0 h]
    simp [applyTocRemoval]

/-- C7: the output of `remove_table_of_contents` is the input with at most
one contiguous block of whole lines deleted (all remaining lines kept
verbatim and in order), and when no input line is a TOC keyword line the
output is exactly the input. -/
theorem C7_remove_toc_frame (content : Text) (language : Option Lang) :
    (∃ a b, a ≤ b ∧ b ≤ (splitNl content).length ∧
      remove_table_of_contents content language =
        joinNl ((splitNl content).take a ++ (splitNl content).drop b)) ∧
    ((∀ line ∈ splitNl content,
        isTocKeywordLine (tocKeywords (language.getD (detect_language content)))
          (pyStrip line) = false) →
      remove_table_of_contents content language = content) := by
  constructor
  · have hid : content = joinNl ((splitNl content).take 0 ++ (splitNl content).drop 0) := by
      simp [joinNl_splitNl]
    unfold remove_table_of_contents
    by_cases hs : pyStrip content = []
    · refine ⟨0, 0, Nat.le_refl 0, Nat.zero_le _, ?_⟩
      rw [if_pos hs]
      exact hid
    · rw [if_neg hs]
      rcases hscan : tocScan (language.getD (detect_language content))
        (splitNl content) 0 none with ⟨_ | ts, _ | te⟩
      · simp only [applyTocRemoval]
        exact ⟨0, 0, Nat.le_refl 0, Nat.zero_le _, hid⟩
      · simp only [applyTocRemoval]
        exact ⟨0, 0, Nat.le_refl 0, Nat.zero_le _, hid⟩
      · simp only [applyTocRemoval]
        rcases hfb : tocFallback (language.getD (detect_language content))
            ((splitNl content).drop (ts + 1)) (ts + 1) with _ | i
        · exact ⟨0, 0, Nat.le_refl 0, Nat.zero_le _, hid⟩
        · have hb := tocFallback_bounds (language.getD (detect_language content))
            ((splitNl content).drop (ts + 1)) (ts + 1) i hfb
          have hlen : ((splitNl content).drop (ts + 1)).length =
              (splitNl content).length - (ts + 1) := by
            simp
          rw [hlen] at hb
          exact ⟨ts, i, by omega, by omega, rfl⟩
      · simp only [applyTocRemoval]
        have hb := tocScan_bounds (language.getD (detect_language content))
          (splitNl content) 0 none (by intro t ht; cases ht) ts te hscan
        exact ⟨ts, te + 1, by omega, by omega, rfl⟩
  · exact remove_toc_of_no_kw content language

/-- C7 witness: both conjuncts of the frame theorem discharged at a concrete
input. -/
theorem C7_remove_toc_frame_witness :
    (∃ a b, a ≤ b ∧ b ≤ (splitNl ("第一章 X\nabc".toList)).length ∧
      remove_table_of_contents ("第一章 X\nabc".toList) (some Lang.chinese) =
        joinNl ((splitNl ("第一章 X\nabc".toList)).take a ++
          (splitNl ("第一章 X\nabc".toList)).drop b)) ∧
    remove_table_of_contents ("第一章 X\nabc".toList) (some Lang.chinese) =
      "第一章 X\nabc".toList := by
  have h := C7_remove_toc_frame ("第一章 X\nabc".toList) (some Lang.chinese)
  exact ⟨h.1, h.2 (by decide)⟩

/-- C8 counterexample: re-running `remove_table_of_contents` on its own
output is NOT always a no-op.  With two `目录` lines, the first run keeps the
earlier `目录` line (the scanner tracks the latest keyword line), so the
second run deletes a further block. -/
theorem C8_counterexample :
    remove_table_of_contents
        (remove_table_of_contents
          ("目录\nx\n目录\n\n".toList ++ List.replicate 52 'a') (some Lang.chinese))
        (some Lang.chinese) ≠
      remove_table_of_contents
        ("目录\nx\n目录\n\n".toList ++ List.replicate 52 'a') (some Lang.chinese) := by
  decide

/-- C8 (corrected): re-running `remove_table_of_contents` on its own output
is a no-op whenever the first output no longer contains a TOC-keyword line
(which the counterexample shows can fail when the input holds several
keyword lines). -/
theorem C8_remove_toc_idempotent_of_no_kw (content : Text) (language : Option Lang)
    (h : ∀ line ∈ splitNl (remove_table_of_contents content language),
      isTocKeywordLine
        (tocKeywords
          (language.getD (detect_language (remove_table_of_contents content language))))
        (pyStrip line) = false) :
    remove_table_of_contents (remove_table_of_contents content language) language =
      remove_table_of_contents content language :=
  remove_toc_of_no_kw (remove_table_of_contents content language) language h

/-- C8 witness: the conditional idempotence applied at a concrete input. -/
theorem C8_remove_toc_idempotent_witness :
    (∀ line ∈ splitNl (remove_table_of_contents ("目录\n第一章 A\nb".toList) (some Lang.chinese)),
      isTocKeywordLine
        (tocKeywords
          ((some Lang.chinese).getD
            (detect_language (remove_table_of_contents ("目录\n第一章 A\nb".toList) (some Lang.chinese)))))
        (pyStrip line) = false) ∧
    remove_table_of_contents
        (remove_table_of_contents ("目录\n第一章 A\nb".toList) (some Lang.chinese))
        (some Lang.chinese) =
      remove_table_of_contents ("目录\n第一章 A\nb".toList) (some Lang.chinese) :=
  ⟨by decide, C8_remove_toc_idempotent_of_no_kw ("目录\n第一章 A\nb".toList)
    (some Lang.chinese) (by decide)⟩

/-! ### C3 / C10: `validate_and_merge_chapters` -/

theorem append_cons_ne_nil (l t : Text) (c : Char) : l ++ c :: t ≠ [] := by
  cases l <;> simp

theorem modifyLast_length (f : Chapter → Chapter) :
    ∀ l : List Chapter, (modifyLast f l).length = l.length := by
  intro l
  induction l with
  | nil => rfl
  | cons c cs ih =>
    cases cs with
    | nil => rfl
    | cons c2 cs2 => simpa [modifyLast] using ih

theorem modifyLast_ne_nil (f : Chapter → Chapter) (l : List Chapter) (h : l ≠ []) :
    modifyLast f l ≠ [] := by
  cases l with
  | nil => exact absurd rfl h
  | cons c cs => cases cs <;> simp [modifyLast]

theorem vamAux_length (language : Lang) (minLen : Nat) :
    ∀ (rest valid : List Chapter) (accC : Text) (accT : Option Text),
      (vamAux language minLen rest valid accC accT).length ≤
        valid.length + (if accC = [] then 0 else 1) + rest.length := by
  intro rest
  induction rest with
  | nil =>
    intro valid accC accT
    by_cases hacc : accC = []
    · simp [vamAux, hacc]
    · simp [vamAux, hacc]
  | cons ch rest ih =>
    intro valid accC accT
    by_cases hlen : (pyStrip (totalContent ch)).length < minLen
    · by_cases hva : valid = [] ∧ accC = []
      · simp only [vamAux, if_pos hlen, if_pos hva]
        have := ih valid (ch.title ++ '\n' :: '\n' :: ch.content) (some ch.title)
        have hne := append_cons_ne_nil ch.title ('\n' :: ch.content) '\n'
        rw [if_neg hne] at this
        rw [hva.2]
        simp only [if_pos rfl, List.length_cons]
        omega
      · by_cases hv : valid ≠ []
        · simp only [vamAux, if_pos hlen, if_neg hva, if_pos hv]
          have := ih (modifyLast (mergeShort ch) valid) accC accT
          rw [modifyLast_length] at this
          simp only [List.length_cons]
          omega
        · simp only [vamAux, if_pos hlen, if_neg hva, if_neg hv]
          have hacc : accC ≠ [] := by
            intro h0
            push_neg at hv
            exact hva ⟨hv, h0⟩
          have := ih valid (accC ++ '\n' :: '\n' :: (ch.title ++ '\n' :: ch.content)) accT
          have hne := append_cons_ne_nil accC ('\n' :: (ch.title ++ '\n' :: ch.content)) '\n'
          rw [if_neg hne] at this
          rw [if_neg hacc]
          simp only [List.length_cons]
          omega
    · by_cases hacc : accC = []
      · simp only [vamAux, if_neg hlen, hacc]
        have hne : ¬(([] : Text) ≠ []) := by simp
        rw [if_neg hne]
        have := ih (valid ++ [ch]) [] accT
        rw [if_pos rfl] at this
        simp only [List.length_append, List.length_cons, List.length_nil] at this ⊢
        omega
      · simp only [vamAux, if_neg hlen, if_pos hacc]
        have := ih (valid ++ [flushChapter language accC accT, ch]) [] none
        rw [if_pos rfl] at this
        simp only [List.length_append, List.length_cons, List.length_nil] at this ⊢
        rw [if_neg hacc]
        omega

theorem vamAux_ne_nil (language : Lang) (minLen : Nat) :
    ∀ (rest valid : List Chapter) (accC : Text) (accT : Option Text),
      (valid ≠ [] ∨ accC ≠ [] ∨ rest ≠ []) →
      vamAux language minLen rest valid accC accT ≠ [] := by
  intro rest
  induction rest with
  | nil =>
    intro valid accC accT h
    by_cases hacc : accC = []
    · rcases h with h | h | h
      · simpa [vamAux, hacc] using h
      · exact absurd hacc h
      · exact absurd rfl h
    · simp [vamAux, hacc]
  | cons ch rest ih =>
    intro valid accC accT _
    by_cases hlen : (pyStrip (totalContent ch)).length < minLen
    · by_cases hva : valid = [] ∧ accC = []
      · simp only [vamAux, if_pos hlen, if_pos hva]
        exact ih valid _ _ (Or.inr (Or.inl
          (append_cons_ne_nil ch.title ('\n' :: ch.content) '\n')))
      · by_cases hv : valid ≠ []
        · simp only [vamAux, if_pos hlen, if_neg hva, if_pos hv]
          exact ih _ accC accT (Or.inl (modifyLast_ne_nil _ _ hv))
        · simp only [vamAux, if_pos hlen, if_neg hva, if_neg hv]
          exact ih valid _ accT (Or.inr (Or.inl
            (append_cons_ne_nil accC ('\n' :: (ch.title ++ '\n' :: ch.content)) '\n')))
    · by_cases hacc : accC = []
      · simp only [vamAux, if_neg hlen, hacc]
        have hne : ¬(([] : Text) ≠ []) := by simp
        rw [if_neg hne]
        exact ih (valid ++ [ch]) [] accT (Or.inl (by simp))
      · simp only [vamAux, if_neg hlen, if_pos hacc]
        exact ih _ [] none (Or.inl (by simp))

/-- C10: consolidation never increases the chapter count and never empties a
non-empty chapter list. -/
theorem C10_merge_length (chapters : List Chapter) (language : Lang) (minLen : Nat) :
    (validate_and_merge_chapters chapters language minLen).length ≤ chapters.length ∧
    (chapters ≠ [] → validate_and_merge_chapters chapters language minLen ≠ []) := by
  unfold validate_and_merge_chapters
  by_cases hc : chapters = []
  · simp [hc]
  · rw [if_neg hc]
    constructor
    · have := vamAux_length language minLen chapters [] [] none
      simpa using this
    · intro _
      exact vamAux_ne_nil language minLen chapters [] [] none (Or.inr (Or.inr hc))

/-- C10 witness: the bounds applied at a concrete chapter list. -/
theorem C10_merge_length_witness :
    (validate_and_merge_chapters
        [⟨"第一章 A".toList, "B".toList, []⟩] Lang.chinese 500).length ≤ 1 ∧
    validate_and_merge_chapters
        [⟨"第一章 A".toList, "B".toList, []⟩] Lang.chinese 500 ≠ [] :=
  ⟨(C10_merge_length [⟨"第一章 A".toList, "B".toList, []⟩] Lang.chinese 500).1,
    (C10_merge_length [⟨"第一章 A".toList, "B".toList, []⟩] Lang.chinese 500).2
      (by decide)⟩

/-- C3: on two adjacent short chapters followed by one long chapter, the
consolidation returns exactly the flushed synthetic preface chapter (holding
both short chapters' headings and prose) followed by the long chapter
unchanged — strictly fewer chapters than it was given. -/
theorem C3_merge_two_short_then_long (c1 c2 c3 : Chapter) (language : Lang)
    (minLen : Nat)
    (h1 : (pyStrip (totalContent c1)).length < minLen)
    (h2 : (pyStrip (totalContent c2)).length < minLen)
    (h3 : minLen ≤ (pyStrip (totalContent c3)).length) :
    validate_and_merge_chapters [c1, c2, c3] language minLen =
      [flushChapter language
        ((c1.title ++ '\n' :: '\n' :: c1.content) ++
          '\n' :: '\n' :: (c2.title ++ '\n' :: c2.content))
        (some c1.title), c3] ∧
    (validate_and_merge_chapters [c1, c2, c3] language minLen).length < 3 := by
  have hne1 := append_cons_ne_nil c1.title ('\n' :: c1.content) '\n'
  have hne2 := append_cons_ne_nil (c1.title ++ '\n' :: '\n' :: c1.content)
    ('\n' :: (c2.title ++ '\n' :: c2.content)) '\n'
  have e : validate_and_merge_chapters [c1, c2, c3] language minLen =
      [flushChapter language
        ((c1.title ++ '\n' :: '\n' :: c1.content) ++
          '\n' :: '\n' :: (c2.title ++ '\n' :: c2.content))
        (some c1.title), c3] := by
    unfold validate_and_merge_chapters
    rw [if_neg (by simp : ¬([c1, c2, c3] = ([] : List Chapter)))]
    simp [vamAux, h1, h2, Nat.not_lt.mpr h3, hne1, hne2]
  exact ⟨e, by rw [e]; simp⟩

/-- C3 witness: the consolidation shape at concrete chapters. -/
theorem C3_merge_two_short_then_long_witness :
    ((pyStrip (totalContent ⟨"短章1".toList, "很短".toList, []⟩)).length < 20 ∧
      (pyStrip (totalContent ⟨"短章2".toList, "也很短".toList, []⟩)).length < 20 ∧
      20 ≤ (pyStrip (totalContent ⟨"长章".toList, List.replicate 30 'a', []⟩)).length) ∧
    validate_and_merge_chapters
        [⟨"短章1".toList, "很短".toList, []⟩, ⟨"短章2".toList, "也很短".toList, []⟩,
          ⟨"长章".toList, List.replicate 30 'a', []⟩] Lang.chinese 20 =
      [flushChapter Lang.chinese
        (("短章1".toList ++ '\n' :: '\n' :: "很短".toList) ++
          '\n' :: '\n' :: ("短章2".toList ++ '\n' :: "也很短".toList))
        (some ("短章1".toList)), ⟨"长章".toList, List.replicate 30 'a', []⟩] :=
  ⟨⟨by decide, by decide, by decide⟩,
    (C3_merge_two_short_then_long ⟨"短章1".toList, "很短".toList, []⟩
      ⟨"短章2".toList, "也很短".toList, []⟩
      ⟨"长章".toList, List.replicate 30 'a', []⟩ Lang.chinese 20
      (by decide) (by decide) (by decide)).1⟩

/-! ### Whitespace-stripping lemmas -/

theorem stripWith_eq_nil_iff (p : Char → Bool) (l : Text) :
    stripWith p l = [] ↔ ∀ c ∈ l, p c := by
  unfold stripWith rstripWith
  constructor
  · intro h c hc
    have h1 : List.dropWhile p (List.dropWhile p l).reverse = [] := by
      have := congrArg List.reverse h
      simpa using this
    have h2 : ∀ x ∈ (List.dropWhile p l).reverse, p x := by
      intro x hx
      exact List.dropWhile_eq_nil_iff.mp h1 x hx
    rcases List.mem_append.mp
        ((List.takeWhile_append_dropWhile (p := p) (l := l)) ▸ hc) with hmem | hmem
    · exact List.mem_takeWhile_imp hmem
    · exact h2 c (List.mem_reverse.mpr hmem)
  · intro h
    have : List.dropWhile p l = [] := List.dropWhile_eq_nil_iff.mpr h
    simp [this]

theorem pyStrip_ne_nil_of_mem {c : Char} {l : Text} (hc : c ∈ l)
    (hw : isPySpace c = false) : pyStrip l ≠ [] := by
  intro h
  have := (stripWith_eq_nil_iff isPySpace l).mp h c hc
  rw [hw] at this
  exact Bool.false_ne_true this

theorem exists_nonspace_of_pyStrip_ne_nil {l : Text} (h : pyStrip l ≠ []) :
    ∃ c ∈ l, isPySpace c = false := by
  by_contra hall
  push_neg at hall
  refine h ((stripWith_eq_nil_iff isPySpace l).mpr ?_)
  intro c hc
  have := hall c hc
  revert this
  cases isPySpace c <;> simp

theorem mem_joinNl {c : Char} {l : Text} {lines : List Text}
    (hc : c ∈ l) (hl : l ∈ lines) : c ∈ joinNl lines := by
  induction lines with
  | nil => simp at hl
  | cons l1 rest ih =>
    cases rest with
    | nil =>
      simp only [List.mem_singleton] at hl
      subst hl
      simpa [joinNl] using hc
    | cons l2 rest2 =>
      simp only [joinNl, List.mem_append, List.mem_cons]
      rcases List.mem_cons.mp hl with h | h
      · subst h
        exact Or.inl hc
      · exact Or.inr (Or.inr (ih h))

/-! ### The TOC scan leaves a non-whitespace line behind -/

theorem searchChapterOrVolume_nil (language : Lang) :
    searchChapterOrVolume language [] = false := by
  cases language <;> decide

theorem isPrefaceLine_nil (language : Lang) :
    isPrefaceLine (prefaceKeywords language) [] = false := by
  cases language <;> decide

theorem tocScan_te_ge (language : Lang) :
    ∀ (rest : List Text) (i : Nat) (ts0 : Option Nat) (ts? : Option Nat) (te : Nat),
      tocScan language rest i ts0 = (ts?, some te) → i ≤ te + 1 := by
  intro rest
  induction rest with
  | nil =>
    intro i ts0 ts? te heq
    simp [tocScan] at heq
  | cons line rest ih =>
    intro i ts0 ts? te heq
    by_cases hkw : isTocKeywordLine (tocKeywords language) (pyStrip line) = true
    · simp only [tocScan] at heq
      rw [if_pos hkw] at heq
      have := ih (i + 1) (some i) ts? te heq
      omega
    · cases ts0 with
      | none =>
        simp only [tocScan] at heq
        rw [if_neg hkw] at heq
        have := ih (i + 1) none ts? te heq
        omega
      | some t0 =>
        simp only [tocScan] at heq
        rw [if_neg hkw] at heq
        by_cases hblank : pyStrip line = []
        · rw [if_pos hblank] at heq
          rcases hfind : ((rest.take 4).map pyStrip).find? (fun l => !l.isEmpty)
            with _ | nextLine
          · simp only [hfind] at heq
            have := ih (i + 1) (some t0) ts? te heq
            omega
          · simp only [hfind] at heq
            by_cases hcond : nextLine.length > 30 ∧
                searchChapterOrVolume language nextLine = false
            · rw [if_pos hcond] at heq
              simp only [Prod.mk.injEq, Option.some.injEq] at heq
              omega
            · rw [if_neg hcond] at heq
              have := ih (i + 1) (some t0) ts? te heq
              omega
        · rw [if_neg hblank] at heq
          by_cases h50 : (pyStrip line).length > 50
          · rw [if_pos h50] at heq
            by_cases hcond2 : searchChapterOrVolume language (pyStrip line) = false ∧
                isPrefaceLine (prefaceKeywords language) (pyStrip line) = false
            · rw [if_pos hcond2] at heq
              simp only [Prod.mk.injEq, Option.some.injEq] at heq
              omega
            · rw [if_neg hcond2] at heq
              have := ih (i + 1) (some t0) ts? te heq
              omega
          · rw [if_neg h50] at heq
            have := ih (i + 1) (some t0) ts? te heq
            omega

theorem tocScan_trigger (language : Lang) :
    ∀ (rest : List Text) (i : Nat) (ts0 : Option Nat),
      (∀ t, ts0 = some t → t < i) →
      ∀ (ts? : Option Nat) (te : Nat),
      tocScan language rest i ts0 = (ts?, some te) →
      ∃ l ∈ rest.drop (te + 1 - i), pyStrip l ≠ [] := by
  intro rest
  induction rest with
  | nil =>
    intro i ts0 _ ts? te heq
    simp [tocScan] at heq
  | cons line rest ih =>
    intro i ts0 hinv ts? te heq
    have hstep : ∀ ts1 : Option Nat, (∀ t, ts1 = some t → t < i + 1) →
        tocScan language rest (i + 1) ts1 = (ts?, some te) →
        ∃ l ∈ (line :: rest).drop (te + 1 - i), pyStrip l ≠ [] := by
      intro ts1 hts1 h1
      have hge := tocScan_te_ge language rest (i + 1) ts1 ts? te h1
      obtain ⟨l, hmem, hne⟩ := ih (i + 1) ts1 hts1 ts? te h1
      refine ⟨l, ?_, hne⟩
      have : te + 1 - i = (te + 1 - (i + 1)) + 1 := by omega
      rw [this]
      simpa using hmem
    by_cases hkw : isTocKeywordLine (tocKeywords language) (pyStrip line) = true
    · simp only [tocScan] at heq
      rw [if_pos hkw] at heq
      exact hstep (some i) (fun t ht => by cases ht; omega) heq
    · cases ts0 with
      | none =>
        simp only [tocScan] at heq
        rw [if_neg hkw] at heq
        exact hstep none (fun t ht => by cases ht) heq
      | some t0 =>
        have ht0 : t0 < i := hinv t0 rfl
        have hkeep : ∀ t, (some t0 : Option Nat) = some t → t < i + 1 := by
          intro t ht
          cases ht
          omega
        simp only [tocScan] at heq
        rw [if_neg hkw] at heq
        by_cases hblank : pyStrip line = []
        · rw [if_pos hblank] at heq
          rcases hfind : ((rest.take 4).map pyStrip).find? (fun l => !l.isEmpty)
            with _ | nextLine
          · simp only [hfind] at heq
            exact hstep (some t0) hkeep heq
          · simp only [hfind] at heq
            by_cases hcond : nextLine.length > 30 ∧
                searchChapterOrVolume language nextLine = false
            · rw [if_pos hcond] at heq
              simp only [Prod.mk.injEq, Option.some.injEq] at heq
              obtain ⟨-, hte⟩ := heq
              have hte1 : te + 1 - i = 1 := by omega
              -- the trigger line sits among the next four lines
              have hmem := List.mem_of_find?_eq_some hfind
              have hpred := List.find?_some hfind
              obtain ⟨orig, horigmem, horig⟩ := List.mem_map.mp hmem
              refine ⟨orig, ?_, ?_⟩
              · rw [hte1]
                simpa using List.mem_of_mem_take horigmem
              · rw [horig]
                intro h0
                rw [h0] at hpred
                simp at hpred
            · rw [if_neg hcond] at heq
              exact hstep (some t0) hkeep heq
        · rw [if_neg hblank] at heq
          by_cases h50 : (pyStrip line).length > 50
          · rw [if_pos h50] at heq
            by_cases hcond2 : searchChapterOrVolume language (pyStrip line) = false ∧
                isPrefaceLine (prefaceKeywords language) (pyStrip line) = false
            · rw [if_pos hcond2] at heq
              simp only [Prod.mk.injEq, Option.some.injEq] at heq
              obtain ⟨-, hte⟩ := heq
              refine ⟨line, ?_, hblank⟩
              have hte0 : te + 1 - i = 0 := by omega
              rw [hte0]
              simp
            · rw [if_neg hcond2] at heq
              exact hstep (some t0) hkeep heq
          · rw [if_neg h50] at heq
            exact hstep (some t0) hkeep heq

theorem tocFallback_trigger (language : Lang) :
    ∀ (rest : List Text) (i0 i : Nat), tocFallback language rest i0 = some i →
      ∃ l ls, rest.drop (i - i0) = l :: ls ∧
        (searchChapterOrVolume language (pyStrip l) = true ∨
          isPrefaceLine (prefaceKeywords language) (pyStrip l) = true) := by
  intro rest
  induction rest with
  | nil =>
    intro i0 i heq
    simp [tocFallback] at heq
  | cons line rest ih =>
    intro i0 i heq
    simp only [tocFallback] at heq
    split at heq
    · cases heq
      exact ⟨line, rest, by simp, Or.inl (by assumption)⟩
    · split at heq
      · cases heq
        exact ⟨line, rest, by simp, Or.inr (by assumption)⟩
      · have hb := tocFallback_bounds language rest (i0 + 1) i heq
        obtain ⟨l, ls, hdrop, hcond⟩ := ih (i0 + 1) i heq
        refine ⟨l, ls, ?_, hcond⟩
        have : i - i0 = (i - (i0 + 1)) + 1 := by omega
        rw [this]
        simpa using hdrop

/-- The TOC-removal never reduces a non-whitespace document to whitespace:
whichever way the scan ends, a line with non-whitespace content survives. -/
theorem remove_toc_strip_ne_nil (content : Text) (language : Option Lang)
    (h : pyStrip content ≠ []) :
    pyStrip (remove_table_of_contents content language) ≠ [] := by
  unfold remove_table_of_contents
  rw [if_neg h]
  rcases hscan : tocScan (language.getD (detect_language content))
    (splitNl content) 0 none with ⟨_ | ts, _ | te⟩
  · simpa [applyTocRemoval] using h
  · simpa [applyTocRemoval] using h
  · simp only [applyTocRemoval]
    rcases hfb : tocFallback (language.getD (detect_language content))
        ((splitNl content).drop (ts + 1)) (ts + 1) with _ | i
    · exact h
    · have hbnd := tocFallback_bounds (language.getD (detect_language content))
        ((splitNl content).drop (ts + 1)) (ts + 1) i hfb
      obtain ⟨l, ls, hdrop, hcond⟩ := tocFallback_trigger
        (language.getD (detect_language content))
        ((splitNl content).drop (ts + 1)) (ts + 1) i hfb
      rw [List.drop_drop] at hdrop
      have hieq : ts + 1 + (i - (ts + 1)) = i := by omega
      rw [hieq] at hdrop
      show pyStrip (joinNl ((splitNl content).take ts ++ (splitNl content).drop i)) ≠ []
      have hlstrip : pyStrip l ≠ [] := by
        intro h0
        rcases hcond with hc | hc
        · rw [h0, searchChapterOrVolume_nil] at hc
          exact Bool.false_ne_true hc
        · rw [h0, isPrefaceLine_nil] at hc
          exact Bool.false_ne_true hc
      obtain ⟨c, hcl, hcw⟩ := exists_nonspace_of_pyStrip_ne_nil hlstrip
      refine pyStrip_ne_nil_of_mem (mem_joinNl hcl ?_) hcw
      rw [List.mem_append]
      exact Or.inr (hdrop ▸ List.mem_cons_self l ls)
  · simp only [applyTocRemoval]
    obtain ⟨l, hmem, hne⟩ := tocScan_trigger (language.getD (detect_language content))
      (splitNl content) 0 none (fun t ht => by cases ht) (some ts) te hscan
    simp only [Nat.sub_zero] at hmem
    obtain ⟨c, hcl, hcw⟩ := exists_nonspace_of_pyStrip_ne_nil hne
    refine pyStrip_ne_nil_of_mem (mem_joinNl hcl ?_) hcw
    rw [List.mem_append]
    exact Or.inr hmem

/-! ### C1 / C2: structure of the extracted document -/

theorem emptyChapterContent_ne_nil (language : Lang) :
    emptyChapterContent language ≠ [] := by
  cases language <;> decide

theorem unknownVolumeContent_ne_nil (language : Lang) :
    unknownVolumeContent language ≠ [] := by
  cases language <;> decide

theorem pyStrip_nil : pyStrip ([] : Text) = [] := rfl

theorem chaptersWithValidation_of_no_length (content : Text) (language : Lang)
    (config : ParserConfig) (h : config.enable_length_validation = false) :
    chaptersWithValidation content language config =
      parse_chapters_from_content content language config := by
  unfold chaptersWithValidation
  rw [h]
  simp

/-- Every chapter produced by the per-match loop is either subdivided with
empty direct content or undivided with non-empty content. -/
theorem chaptersGo_dichotomy (content : Text) (language : Lang) :
    ∀ (ms : List MatchInfo) (seen : List Text), ∀ ch ∈ chaptersGo content language seen ms,
      (ch.sections ≠ [] → ch.content = []) ∧ (ch.sections = [] → ch.content ≠ []) := by
  intro ms
  induction ms with
  | nil =>
    intro seen ch hch
    simp [chaptersGo] at hch
  | cons m rest ih =>
    intro seen ch hch
    simp only [chaptersGo] at hch
    split at hch
    · split at hch
      · rename_i hsecs
        rcases List.mem_cons.mp hch with hc | hc
        · subst hc
          refine ⟨fun _ => rfl, fun habs => ?_⟩
          exact absurd habs hsecs
        · exact ih _ ch hc
      · rcases List.mem_cons.mp hch with hc | hc
        · subst hc
          refine ⟨fun habs => absurd rfl habs, fun _ => ?_⟩
          dsimp only
          split
          · exact emptyChapterContent_ne_nil language
          · rename_i hcc
            intro h0
            rw [h0] at hcc
            exact hcc pyStrip_nil
        · exact ih _ ch hc
    · exact ih _ ch hch

/-- Every chapter produced by `parse_chapters_from_content` satisfies the
content/sections dichotomy. -/
theorem parse_chapters_dichotomy (content : Text) (language : Lang)
    (config : ParserConfig) :
    ∀ ch ∈ parse_chapters_from_content content language config,
      (ch.sections ≠ [] → ch.content = []) ∧ (ch.sections = [] → ch.content ≠ []) := by
  intro ch hch
  unfold parse_chapters_from_content at hch
  split at hch
  · simp at hch
  · split at hch
    · simp at hch
    · rcases List.mem_append.mp hch with hpre | hgo
      · unfold chapterPrefaceOf at hpre
        split at hpre
        · rename_i hguard
          split at hpre
          · rename_i hsecs
            rcases List.mem_singleton.mp hpre with hc
            subst hc
            exact ⟨fun _ => rfl, fun habs => absurd habs hsecs⟩
          · rcases List.mem_singleton.mp hpre with hc
            subst hc
            exact ⟨fun habs => absurd rfl habs, fun _ => hguard.2⟩
        · simp at hpre
      · exact chaptersGo_dichotomy content language _ _ ch hgo

/-- With length validation disabled, every chapter of every volume produced
by the matched-volume loop satisfies the dichotomy. -/
theorem volumesGo_dichotomy (content : Text) (language : Lang) (config : ParserConfig)
    (hlen : config.enable_length_validation = false) :
    ∀ (ms : List MatchInfo) (seen : List Text), ∀ v ∈ volumesGo content language config seen ms,
      ∀ ch ∈ v.chapters,
        (ch.sections ≠ [] → ch.content = []) ∧ (ch.sections = [] → ch.content ≠ []) := by
  intro ms
  induction ms with
  | nil =>
    intro seen v hv
    simp [volumesGo] at hv
  | cons m rest ih =>
    intro seen v hv
    simp only [volumesGo] at hv
    split at hv
    · split at hv
      · rcases List.mem_cons.mp hv with hc | hc
        · subst hc
          intro ch hch
          rw [chaptersWithValidation_of_no_length _ _ _ hlen] at hch
          exact parse_chapters_dichotomy _ language config ch hch
        · exact ih _ v hc
      · split at hv
        · rename_i hne
          rcases List.mem_cons.mp hv with hc | hc
          · subst hc
            intro ch hch
            rcases List.mem_singleton.mp hch with hc2
            subst hc2
            exact ⟨fun habs => absurd rfl habs, fun _ => hne⟩
          · exact ih _ v hc
        · exact ih _ v hv
    · exact ih _ v hv

/-- C2 (amended): with `enable_length_validation = false`, every chapter in
the returned document has either non-empty sections and empty content or
empty sections and non-empty content; the counterexample shows the merge
pass can produce a chapter that is both populated and subdivided. -/
theorem C2_dichotomy_without_merge (content : Text) (config : ParserConfig)
    (hlen : config.enable_length_validation = false) :
    ∀ v ∈ parse_hierarchical_content content config, ∀ ch ∈ v.chapters,
      (ch.sections ≠ [] → ch.content = []) ∧ (ch.sections = [] → ch.content ≠ []) := by
  intro v hv ch hch
  unfold parse_hierarchical_content at hv
  split at hv
  · rcases List.mem_singleton.mp hv with hc
    subst hc
    rcases List.mem_singleton.mp hch with hc2
    subst hc2
    exact ⟨fun habs => absurd rfl habs, fun _ => by decide⟩
  · rename_i hne
    unfold volumesOf at hv
    split at hv
    · rcases List.mem_singleton.mp hv with hc
      subst hc
      rcases List.mem_singleton.mp hch with hc2
      subst hc2
      exact ⟨fun habs => absurd rfl habs,
        fun _ => unknownVolumeContent_ne_nil (detect_language content)⟩
    · unfold volumesOfAux at hv
      split at hv
      · split at hv
        · rcases List.mem_singleton.mp hv with hc
          subst hc
          rw [chaptersWithValidation_of_no_length _ _ _ hlen] at hch
          exact parse_chapters_dichotomy _ _ config ch hch
        · rcases List.mem_singleton.mp hv with hc
          subst hc
          rcases List.mem_singleton.mp hch with hc2
          subst hc2
          refine ⟨fun habs => absurd rfl habs, fun _ => ?_⟩
          exact remove_toc_strip_ne_nil content (some (detect_language content)) hne
      · rcases List.mem_append.mp hv with hpre | hgo
        · unfold volumePrefaceOf at hpre
          split at hpre
          · rename_i hguard
            split at hpre
            · rcases List.mem_singleton.mp hpre with hc
              subst hc
              rw [chaptersWithValidation_of_no_length _ _ _ hlen] at hch
              exact parse_chapters_dichotomy _ _ config ch hch
            · rcases List.mem_singleton.mp hpre with hc
              subst hc
              rcases List.mem_singleton.mp hch with hc2
              subst hc2
              exact ⟨fun habs => absurd rfl habs, fun _ => hguard.2⟩
          · simp at hpre
        · exact volumesGo_dichotomy _ _ config hlen _ _ v hgo ch hch

/-- C2 counterexample: with length validation on (and chapter validation
off, min length 3), merging the short chapter `第二章 丙` into the
section-bearing chapter `第一章 甲` yields a chapter with non-empty sections
AND non-empty content. -/
theorem C2_counterexample :
    ∃ v ∈ parse_hierarchical_content ("第一章 甲\n第一节 乙乙\n第二章 丙\n短".toList)
      ⟨false, true, 3⟩, ∃ ch ∈ v.chapters, ch.sections ≠ [] ∧ ch.content ≠ [] := by
  decide

/-- C2 witness: the amended dichotomy applied at a concrete input: the
single chapter of the parsed document carries sections, so its content is
empty. -/
theorem C2_dichotomy_witness :
    ((parse_hierarchical_content ("第一章 甲\n第一节 乙乙\n第二章 丙\n短".toList)
        ⟨true, false, 500⟩).headI.chapters.headI.content = []) :=
  (C2_dichotomy_without_merge ("第一章 甲\n第一节 乙乙\n第二章 丙\n短".toList)
      ⟨true, false, 500⟩ rfl
      (parse_hierarchical_content ("第一章 甲\n第一节 乙乙\n第二章 丙\n短".toList)
        ⟨true, false, 500⟩).headI (by decide)
      (parse_hierarchical_content ("第一章 甲\n第一节 乙乙\n第二章 丙\n短".toList)
        ⟨true, false, 500⟩).headI.chapters.headI (by decide)).1 (by decide)

/-- Every volume built by the matched-volume loop carries a non-empty
chapter list. -/
theorem volumesGo_chapters_ne_nil (content : Text) (language : Lang)
    (config : ParserConfig) :
    ∀ (ms : List MatchInfo) (seen : List Text), ∀ v ∈ volumesGo content language config seen ms,
      v.chapters ≠ [] := by
  intro ms
  induction ms with
  | nil =>
    intro seen v hv
    simp [volumesGo] at hv
  | cons m rest ih =>
    intro seen v hv
    simp only [volumesGo] at hv
    split at hv
    · split at hv
      · rename_i hne
        rcases List.mem_cons.mp hv with hc | hc
        · subst hc
          exact hne
        · exact ih _ v hc
      · split at hv
        · rcases List.mem_cons.mp hv with hc | hc
          · subst hc
            simp
          · exact ih _ v hc
        · exact ih _ v hv
    · exact ih _ v hv

/-- C1: for every input text and configuration, the parser returns at least
one volume, and every returned volume holds at least one chapter (with
empty or whitespace-only input handled by the placeholder document). -/
theorem C1_extract_structure_nonempty (content : Text) (config : ParserConfig) :
    parse_hierarchical_content content config ≠ [] ∧
    ∀ v ∈ parse_hierarchical_content content config, v.chapters ≠ [] := by
  constructor
  · unfold parse_hierarchical_content
    split
    · simp
    · unfold volumesOf
      split
      · simp
      · assumption
  · intro v hv
    unfold parse_hierarchical_content at hv
    split at hv
    · rcases List.mem_singleton.mp hv with hc
      subst hc
      simp
    · unfold volumesOf at hv
      split at hv
      · rcases List.mem_singleton.mp hv with hc
        subst hc
        simp
      · unfold volumesOfAux at hv
        split at hv
        · split at hv
          · rename_i hne
            rcases List.mem_singleton.mp hv with hc
            subst hc
            exact hne
          · rcases List.mem_singleton.mp hv with hc
            subst hc
            simp
        · rcases List.mem_append.mp hv with hpre | hgo
          · unfold volumePrefaceOf at hpre
            split at hpre
            · split at hpre
              · rename_i hne
                rcases List.mem_singleton.mp hpre with hc
                subst hc
                exact hne
              · rcases List.mem_singleton.mp hpre with hc
                subst hc
                simp
            · simp at hpre
          · exact volumesGo_chapters_ne_nil _ _ config _ _ v hgo

/-! ### C4: the heading validator rejects a heading that is alone on its
own line

Because the chapter pattern starts with `(?:^|\n)`, a match that follows a
non-blank line begins AT the newline terminating that previous line, so
check (4) of `is_valid_chapter_title` (`content[line_start:match_start]`)
inspects the PREVIOUS line instead of the heading's own line, and rejects
genuine headings.  The repository's own unit test
(`tests/test_parser.py::test_chinese_simple_chapters`) expects both
headings of this very document shape to be accepted. -/

/-- C4: on `"第一章 开始\n这是第一章的内容。\n\n第二章 继续\n..."` the second
chapter heading `第二章 继续` stands alone on its own line and none of the
claim's rejection conditions (a)–(c) fires — its stripped match text is
only 6 characters, no inline-reference or punctuation context precedes it,
and no continuation pattern follows — yet `is_valid_chapter_title` returns
`false`, contradicting condition (d) as specified. -/
theorem C4_validator_rejects_lone_heading :
    (chapterFinditer Lang.chinese
      ("第一章 开始\n这是第一章的内容。\n\n第二章 继续\n这是第二章的内容。".toList))[1]? =
        some ⟨16, 17, 24⟩ ∧
    pyStrip (group0
      ("第一章 开始\n这是第一章的内容。\n\n第二章 继续\n这是第二章的内容。".toList)
      ⟨16, 17, 24⟩) = "第二章 继续".toList ∧
    (splitNl
      ("第一章 开始\n这是第一章的内容。\n\n第二章 继续\n这是第二章的内容。".toList))[3]? =
        some ("第二章 继续".toList) ∧
    (pyStrip (group0
      ("第一章 开始\n这是第一章的内容。\n\n第二章 继续\n这是第二章的内容。".toList)
      ⟨16, 17, 24⟩)).length ≤ 100 ∧
    searchPlain cnInlineRefRE
      (lastN 20 (pySlice
        ("第一章 开始\n这是第一章的内容。\n\n第二章 继续\n这是第二章的内容。".toList)
        (16 - 50) 16) ++
        (pyStrip (group0
          ("第一章 开始\n这是第一章的内容。\n\n第二章 继续\n这是第二章的内容。".toList)
          ⟨16, 17, 24⟩)).take 10) = false ∧
    searchPlain cnPunctRefRE
      (lastN 10 (pySlice
        ("第一章 开始\n这是第一章的内容。\n\n第二章 继续\n这是第二章的内容。".toList)
        (16 - 50) 16) ++
        (pyStrip (group0
          ("第一章 开始\n这是第一章的内容。\n\n第二章 继续\n这是第二章的内容。".toList)
          ⟨16, 17, 24⟩)).take 10) = false ∧
    matchAt cnContinuationRE
      (pySlice
        ("第一章 开始\n这是第一章的内容。\n\n第二章 继续\n这是第二章的内容。".toList)
        24 (24 + 50)) = false ∧
    matchAt cnCommaRE
      (pySlice
        ("第一章 开始\n这是第一章的内容。\n\n第二章 继续\n这是第二章的内容。".toList)
        24 (24 + 50)) = false ∧
    is_valid_chapter_title ⟨16, 17, 24⟩
      ("第一章 开始\n这是第一章的内容。\n\n第二章 继续\n这是第二章的内容。".toList)
      Lang.chinese = false := by
  decide

/-! ### C9: title de-duplication

The de-duplication proofs need to know what shape of text a pattern match
can capture (a synthetic preface title never collides with a matched title
because their first characters differ).  `Produces re c` says the matcher
can consume exactly `c` for `re`; the soundness lemmas below decompose a
successful `mat` run accordingly. -/

inductive Produces : RE → Text → Prop where
  | cls {p : Char → Bool} {c : Char} : p c = true → Produces (.cls p) [c]
  | lits {l : Text} : Produces (.lits l) l
  | liti {l c : Text} :
      List.Forall₂ (fun a b => asciiLower a = asciiLower b) l c → Produces (.liti l) c
  | seq {a b : RE} {s t : Text} :
      Produces a s → Produces b t → Produces (.seq a b) (s ++ t)
  | altL {a b : RE} {s : Text} : Produces a s → Produces (.alt a b) s
  | altR {a b : RE} {s : Text} : Produces b s → Produces (.alt a b) s
  | eps : Produces .eps []
  | optS {a : RE} {s : Text} : Produces a s → Produces (.opt a) s
  | optN {a : RE} : Produces (.opt a) []
  | starC {p : Char → Bool} {s : Text} :
      (∀ c ∈ s, p c = true) → Produces (.starC p) s
  | plusC {p : Char → Bool} {s : Text} :
      s ≠ [] → (∀ c ∈ s, p c = true) → Produces (.plusC p) s
  | repC {p : Char → Bool} {lo hi : Nat} {s : Text} :
      (∀ c ∈ s, p c = true) → Produces (.repC p lo hi) s

theorem orElse_eq_some {a b : Option Text} {r : Text}
    (h : (a <|> b) = some r) : a = some r ∨ (a = none ∧ b = some r) := by
  cases a with
  | none => exact Or.inr ⟨rfl, by simpa using h⟩
  | some v => exact Or.inl (by simpa using h)

theorem starMat_sound (p : Char → Bool) :
    ∀ (s : Text) (k : Text → Option Text) (r : Text), starMat p s k = some r →
      ∃ c m, s = c ++ m ∧ (∀ x ∈ c, p x = true) ∧ k m = some r := by
  intro s
  induction s with
  | nil =>
    intro k r h
    exact ⟨[], [], rfl, by simp, by simpa [starMat] using h⟩
  | cons x xs ih =>
    intro k r h
    simp only [starMat] at h
    split at h
    · rename_i hp
      rcases orElse_eq_some h with h1 | ⟨_, h1⟩
      · obtain ⟨c, m, hcm, hcp, hk⟩ := ih k r h1
        exact ⟨x :: c, m, by rw [hcm]; rfl, by
          intro y hy
          rcases List.mem_cons.mp hy with hy | hy
          · rw [hy]; exact hp
          · exact hcp y hy, hk⟩
      · exact ⟨[], x :: xs, rfl, by simp, h1⟩
    · exact ⟨[], x :: xs, rfl, by simp, h⟩

theorem repMat_sound (p : Char → Bool) :
    ∀ (s : Text) (lo hi : Nat) (k : Text → Option Text) (r : Text),
      repMat p lo hi s k = some r →
      ∃ c m, s = c ++ m ∧ (∀ x ∈ c, p x = true) ∧ k m = some r := by
  intro s
  induction s with
  | nil =>
    intro lo hi k r h
    match lo, hi with
    | 0, 0 => exact ⟨[], [], rfl, by simp, by simpa [repMat] using h⟩
    | 0, hi + 1 => exact ⟨[], [], rfl, by simp, by simpa [repMat] using h⟩
    | lo + 1, hi => simp [repMat] at h
  | cons x xs ih =>
    intro lo hi k r h
    match lo, hi with
    | 0, 0 => exact ⟨[], x :: xs, rfl, by simp, by simpa [repMat] using h⟩
    | 0, hi + 1 =>
      simp only [repMat] at h
      split at h
      · rename_i hp
        rcases orElse_eq_some h with h1 | ⟨_, h1⟩
        · obtain ⟨c, m, hcm, hcp, hk⟩ := ih 0 hi k r h1
          exact ⟨x :: c, m, by rw [hcm]; rfl, by
            intro y hy
            rcases List.mem_cons.mp hy with hy | hy
            · rw [hy]; exact hp
            · exact hcp y hy, hk⟩
        · exact ⟨[], x :: xs, rfl, by simp, h1⟩
      · exact ⟨[], x :: xs, rfl, by simp, h⟩
    | lo + 1, hi =>
      simp only [repMat] at h
      split at h
      · rename_i hp
        obtain ⟨c, m, hcm, hcp, hk⟩ := ih lo (hi - 1) k r h
        exact ⟨x :: c, m, by rw [hcm]; rfl, by
          intro y hy
          rcases List.mem_cons.mp hy with hy | hy
          · rw [hy]; exact hp
          · exact hcp y hy, hk⟩
      · exact absurd h (by simp)

theorem prefixIMat_sound :
    ∀ (l s r : Text), prefixIMat l s = some r →
      ∃ c, s = c ++ r ∧ List.Forall₂ (fun a b => asciiLower a = asciiLower b) l c := by
  intro l
  induction l with
  | nil =>
    intro s r h
    simp only [prefixIMat] at h
    exact ⟨[], by simpa using (Option.some.injEq _ _ ▸ h).symm ▸ rfl, List.Forall₂.nil⟩
  | cons a l ih =>
    intro s r h
    cases s with
    | nil => simp [prefixIMat] at h
    | cons c s' =>
      simp only [prefixIMat] at h
      split at h
      · rename_i hlow
        obtain ⟨cs, hcs, hforall⟩ := ih s' r h
        exact ⟨c :: cs, by rw [hcs]; rfl, List.Forall₂.cons hlow hforall⟩
      · exact absurd h (by simp)

theorem mat_sound :
    ∀ (re : RE) (s : Text) (k : Text → Option Text) (r : Text), mat re s k = some r →
      ∃ c m, s = c ++ m ∧ Produces re c ∧ k m = some r := by
  intro re
  induction re with
  | cls p =>
    intro s k r h
    cases s with
    | nil => simp [mat] at h
    | cons c rest =>
      simp only [mat] at h
      split at h
      · exact ⟨[c], rest, rfl, Produces.cls (by assumption), h⟩
      · exact absurd h (by simp)
  | lits l =>
    intro s k r h
    simp only [mat] at h
    split at h
    · rename_i hpre
      obtain ⟨t, ht⟩ := List.isPrefixOf_iff_prefix.mp hpre
      refine ⟨l, s.drop l.length, ?_, Produces.lits, h⟩
      rw [← ht, List.drop_left]
    · exact absurd h (by simp)
  | liti l =>
    intro s k r h
    simp only [mat] at h
    rcases hpm : prefixIMat l s with _ | rest
    · rw [hpm] at h
      exact absurd h (by simp)
    · rw [hpm] at h
      obtain ⟨c, hc, hforall⟩ := prefixIMat_sound l s rest hpm
      exact ⟨c, rest, hc, Produces.liti hforall, h⟩
  | seq a b iha ihb =>
    intro s k r h
    simp only [mat] at h
    obtain ⟨c1, m1, hs, hp1, hk1⟩ := iha s _ r h
    obtain ⟨c2, m2, hm1, hp2, hk2⟩ := ihb m1 k r hk1
    exact ⟨c1 ++ c2, m2, by rw [hs, hm1, List.append_assoc],
      Produces.seq hp1 hp2, hk2⟩
  | alt a b iha ihb =>
    intro s k r h
    simp only [mat] at h
    rcases orElse_eq_some h with h1 | ⟨_, h1⟩
    · obtain ⟨c, m, hs, hp, hk⟩ := iha s k r h1
      exact ⟨c, m, hs, Produces.altL hp, hk⟩
    · obtain ⟨c, m, hs, hp, hk⟩ := ihb s k r h1
      exact ⟨c, m, hs, Produces.altR hp, hk⟩
  | eps =>
    intro s k r h
    exact ⟨[], s, rfl, Produces.eps, by simpa [mat] using h⟩
  | opt a iha =>
    intro s k r h
    simp only [mat] at h
    rcases orElse_eq_some h with h1 | ⟨_, h1⟩
    · obtain ⟨c, m, hs, hp, hk⟩ := iha s k r h1
      exact ⟨c, m, hs, Produces.optS hp, hk⟩
    · exact ⟨[], s, rfl, Produces.optN, h1⟩
  | starC p =>
    intro s k r h
    obtain ⟨c, m, hs, hcp, hk⟩ := starMat_sound p s k r (by simpa [mat] using h)
    exact ⟨c, m, hs, Produces.starC hcp, hk⟩
  | plusC p =>
    intro s k r h
    cases s with
    | nil => simp [mat] at h
    | cons x xs =>
      simp only [mat] at h
      split at h
      · rename_i hp
        obtain ⟨c, m, hs, hcp, hk⟩ := starMat_sound p xs k r h
        refine ⟨x :: c, m, by rw [hs]; rfl, Produces.plusC (by simp) ?_, hk⟩
        intro y hy
        rcases List.mem_cons.mp hy with hy | hy
        · rw [hy]; exact hp
        · exact hcp y hy
      · exact absurd h (by simp)
  | repC p lo hi =>
    intro s k r h
    obtain ⟨c, m, hs, hcp, hk⟩ := repMat_sound p s lo hi k r (by simpa [mat] using h)
    exact ⟨c, m, hs, Produces.repC hcp, hk⟩

/-! #### Inversion helpers for `Produces` -/

theorem produces_seq_inv {a b : RE} {s : Text} (h : Produces (.seq a b) s) :
    ∃ s1 s2, s = s1 ++ s2 ∧ Produces a s1 ∧ Produces b s2 := by
  cases h with
  | seq h1 h2 => exact ⟨_, _, rfl, h1, h2⟩

theorem produces_alt_inv {a b : RE} {s : Text} (h : Produces (.alt a b) s) :
    Produces a s ∨ Produces b s := by
  cases h with
  | altL h1 => exact Or.inl h1
  | altR h1 => exact Or.inr h1

theorem produces_lits_inv {l s : Text} (h : Produces (.lits l) s) : s = l := by
  cases h
  rfl

theorem produces_liti_inv {l s : Text} (h : Produces (.liti l) s) :
    List.Forall₂ (fun a b => asciiLower a = asciiLower b) l s := by
  cases h
  assumption

theorem produces_plusC_inv {p : Char → Bool} {s : Text}
    (h : Produces (.plusC p) s) : s ≠ [] ∧ ∀ c ∈ s, p c = true := by
  cases h
  exact ⟨by assumption, by assumption⟩

/-- Alternation of case-sensitive literals produces exactly one of them (for
a non-empty literal list). -/
theorem produces_reAlts_lits {ls : List Text} {s : Text} (hne : ls ≠ [])
    (h : Produces (reAlts (ls.map RE.lits)) s) : s ∈ ls := by
  induction ls with
  | nil => exact absurd rfl hne
  | cons l rest ih =>
    cases rest with
    | nil =>
      have := produces_lits_inv h
      simp [this]
    | cons l2 rest2 =>
      rcases produces_alt_inv h with h1 | h1
      · have := produces_lits_inv h1
        simp [this]
      · exact List.mem_cons_of_mem l (ih (by simp) h1)

/-! #### Whitespace sandwich: the stripped capture starts with the body's
first character -/

theorem dropWhile_append_of_all {p : Char → Bool} {w l : Text}
    (hw : ∀ x ∈ w, p x = true) : List.dropWhile p (w ++ l) = List.dropWhile p l := by
  induction w with
  | nil => rfl
  | cons x xs ih =>
    have hx := hw x (List.mem_cons_self x xs)
    simp only [List.cons_append, List.dropWhile_cons, hx, if_true]
    exact ih (fun y hy => hw y (List.mem_cons_of_mem x hy))

theorem dropWhile_append_last {p : Char → Bool} {l : Text} {c : Char}
    (hc : p c = false) : ∃ m, List.dropWhile p (l ++ [c]) = m ++ [c] := by
  induction l with
  | nil => exact ⟨[], by simp [List.dropWhile_cons, hc]⟩
  | cons x xs ih =>
    by_cases hx : p x = true
    · obtain ⟨m, hm⟩ := ih
      exact ⟨m, by simp only [List.cons_append, List.dropWhile_cons, hx, if_true]; exact hm⟩
    · exact ⟨x :: xs, by
        simp only [List.cons_append, List.dropWhile_cons]
        rw [if_neg (by simpa using hx)]⟩

theorem pyStrip_sandwich {w w' cs : Text} {c : Char}
    (hw : ∀ x ∈ w, isPySpace x = true) (hc : isPySpace c = false) :
    ∃ t, pyStrip (w ++ (c :: cs) ++ w') = c :: t := by
  unfold pyStrip stripWith rstripWith
  rw [List.append_assoc, dropWhile_append_of_all hw, List.cons_append]
  have hdw : List.dropWhile isPySpace (c :: (cs ++ w')) = c :: (cs ++ w') := by
    simp [List.dropWhile_cons, hc]
  rw [hdw]
  have hrev : (c :: (cs ++ w')).reverse = (cs ++ w').reverse ++ [c] := by simp
  rw [hrev]
  obtain ⟨m, hm⟩ := dropWhile_append_last (l := (cs ++ w').reverse) hc
  rw [hm]
  exact ⟨m.reverse, by simp⟩

/-! #### From `finditer` membership back to a successful match attempt -/

theorem mem_scanAux {tryAt : Nat → Option MatchInfo} {len : Nat} :
    ∀ (fuel i : Nat) (m : MatchInfo), m ∈ scanAux tryAt len i fuel →
      ∃ j, tryAt j = some m := by
  intro fuel
  induction fuel with
  | zero =>
    intro i m hm
    simp [scanAux] at hm
  | succ fuel ih =>
    intro i m hm
    simp only [scanAux] at hm
    split at hm
    · simp at hm
    · rcases hmm : tryAt i with _ | m2
      · rw [hmm] at hm
        exact ih _ m hm
      · rw [hmm] at hm
        rcases List.mem_cons.mp hm with hc | hc
        · exact ⟨i, by rw [hmm, hc]⟩
        · exact ih _ m hc

theorem lookNlEnd_eq {m r : Text} (h : lookNlEnd m = some r) : r = m := by
  cases m with
  | nil => exact (Option.some.inj h).symm
  | cons c rest =>
    simp only [lookNlEnd] at h
    split at h
    · exact (Option.some.inj h).symm
    · exact absurd h (by simp)

theorem tryGroupAt_group {body : RE} {content : Text} {g stop : Nat}
    (h : tryGroupAt body content g = some stop) :
    ∃ w b w', (∀ x ∈ w, isPySpace x = true) ∧ Produces body b ∧
      pySlice content g stop = w ++ b ++ w' := by
  unfold tryGroupAt at h
  rcases hmat : mat (grpOf body) (content.drop g) lookNlEnd with _ | rst
  · rw [hmat] at h
    exact absurd h (by simp)
  · rw [hmat] at h
    have hstop : content.length - rst.length = stop := by simpa using h
    obtain ⟨c, mm, hcm, hprod, hlook⟩ := mat_sound (grpOf body) (content.drop g)
      lookNlEnd rst hmat
    have hmm : mm = rst := (lookNlEnd_eq hlook).symm
    subst hmm
    obtain ⟨w, s2, hw2, hws, hinner⟩ := produces_seq_inv hprod
    obtain ⟨b, w', hbw, hb, hw'⟩ := produces_seq_inv hinner
    cases hws with
    | starC hwall =>
      refine ⟨w, b, w', hwall, hb, ?_⟩
      have hlen : c.length + mm.length = content.length - g := by
        have := congrArg List.length hcm
        simp at this
        omega
      have hslice : pySlice content g stop = c := by
        unfold pySlice
        have harith : stop - g = c.length := by
          rcases le_or_lt g content.length with hg | hg
          · omega
          · have hnil : content.drop g = [] := by
              apply List.drop_eq_nil_of_le
              omega
            rw [hnil] at hcm
            have := congrArg List.length hcm
            simp at this
            omega
        rw [hcm, harith, List.take_left]
      rw [hslice, hw2, hbw, List.append_assoc]

theorem tryViaNl_group {body : RE} {content : Text} {i : Nat} {m : MatchInfo}
    (h : tryViaNl body content i = some m) :
    ∃ w b w', (∀ x ∈ w, isPySpace x = true) ∧ Produces body b ∧
      group1 content m = w ++ b ++ w' := by
  unfold tryViaNl at h
  split at h
  · rcases hg2 : tryGroupAt body content (i + 1) with _ | stop2
    · rw [hg2] at h
      exact absurd h (by simp)
    · rw [hg2] at h
      have hm : (⟨i, i + 1, stop2⟩ : MatchInfo) = m := Option.some.inj h
      subst hm
      exact tryGroupAt_group hg2
  · exact absurd h (by simp)

theorem tryAnchoredAt_group {body : RE} {content : Text} {i : Nat} {m : MatchInfo}
    (h : tryAnchoredAt body content i = some m) :
    ∃ w b w', (∀ x ∈ w, isPySpace x = true) ∧ Produces body b ∧
      group1 content m = w ++ b ++ w' := by
  unfold tryAnchoredAt at h
  split at h
  · rcases hg : tryGroupAt body content i with _ | stop
    · rw [hg] at h
      exact tryViaNl_group h
    · rw [hg] at h
      have hm : (⟨i, i, stop⟩ : MatchInfo) = m := Option.some.inj h
      subst hm
      exact tryGroupAt_group hg
  · exact tryViaNl_group h

theorem tryPlainAt_group {body : RE} {content : Text} {i : Nat} {m : MatchInfo}
    (h : tryPlainAt body content i = some m) : Produces body (group1 content m) := by
  unfold tryPlainAt at h
  rcases hmat : mat body (content.drop i) some with _ | rst
  · rw [hmat] at h
    exact absurd h (by simp)
  · rw [hmat] at h
    have hm : (⟨i, i, content.length - rst.length⟩ : MatchInfo) = m := Option.some.inj h
    subst hm
    obtain ⟨c, mm, hcm, hprod, hsome⟩ := mat_sound body (content.drop i) some rst hmat
    have hmm : mm = rst := by simpa using hsome
    subst hmm
    have hlen : c.length + mm.length = content.length - i := by
      have := congrArg List.length hcm
      simp at this
      omega
    have hslice :
        group1 content (⟨i, i, content.length - mm.length⟩ : MatchInfo) = c := by
      unfold group1 pySlice
      have harith : content.length - mm.length - i = c.length := by
        rcases le_or_lt i content.length with hg | hg
        · omega
        · have hnil : content.drop i = [] := by
            apply List.drop_eq_nil_of_le
            omega
          rw [hnil] at hcm
          have := congrArg List.length hcm
          simp at this
          omega
      rw [hcm, harith, List.take_left]
    rw [hslice]
    exact hprod

/-! #### First characters of matched headings -/

theorem ws_asciiLower_self {c : Char} (h : isPySpace c = true) : asciiLower c = c := by
  unfold asciiLower
  split
  · rename_i hr
    exfalso
    simp only [isPySpace, decide_eq_true_eq] at h
    omega
  · rfl

theorem head_not_ws_of_lower {c t : Char} (h : asciiLower c = t)
    (ht : isPySpace t = false) : isPySpace c = false := by
  by_contra hc
  rw [Bool.not_eq_false] at hc
  rw [ws_asciiLower_self hc] at h
  rw [h] at hc
  rw [hc] at ht
  exact absurd ht (by simp)

theorem digit_not_ws {c : Char} (h : isAsciiDigit c = true) : isPySpace c = false := by
  simp only [isAsciiDigit, decide_eq_true_eq] at h
  simp only [isPySpace, decide_eq_false_iff_not]
  omega

theorem produces_liti_head {l s : Text} {c0 : Char} {l' : Text} (hl : l = c0 :: l')
    (h : Produces (.liti l) s) : ∃ c cs, s = c :: cs ∧ asciiLower c = asciiLower c0 := by
  have hf := produces_liti_inv h
  rw [hl] at hf
  cases hf with
  | cons hhead htail => exact ⟨_, _, rfl, hhead.symm⟩

/-- The first characters a Chinese chapter heading can start with. -/
def cnChapterHeadChars : List Char :=
  ['第', '番', '外', '特', '插', '后', '尾', '终', '楔', '序']

theorem cn_specials_heads :
    ∀ kw ∈ ChinesePatterns.specialChapterKeywords,
      kw ≠ [] ∧ kw.headI ∈ cnChapterHeadChars ∧ isPySpace kw.headI = false := by
  decide

theorem cn_chapterBody_head {s : Text} (h : Produces ChinesePatterns.chapterBody s) :
    ∃ c cs, s = c :: cs ∧ c ∈ cnChapterHeadChars ∧ isPySpace c = false := by
  rcases produces_alt_inv h with h1 | h1
  · obtain ⟨s1, s2, hs, ha, _⟩ := produces_seq_inv h1
    have hl := produces_lits_inv ha
    refine ⟨'第', s2, ?_, by decide, by decide⟩
    rw [hs, hl]
    rfl
  · obtain ⟨s1, s2, hs, ha, _⟩ := produces_seq_inv h1
    have hmem := produces_reAlts_lits (by decide) ha
    obtain ⟨hne, hmem2, hw⟩ := cn_specials_heads s1 hmem
    cases hs1 : s1 with
    | nil => exact absurd hs1 hne
    | cons c cs =>
      rw [hs1] at hmem2 hw
      simp only [List.headI] at hmem2 hw
      exact ⟨c, cs ++ s2, by rw [hs, hs1]; rfl, hmem2, hw⟩

theorem cn_sectionBody_head {s : Text} (h : Produces ChinesePatterns.sectionBody s) :
    ∃ cs, s = '第' :: cs := by
  obtain ⟨s1, s2, hs, ha, _⟩ := produces_seq_inv h
  have hl := produces_lits_inv ha
  refine ⟨s2, ?_⟩
  rw [hs, hl]
  rfl

theorem en_chapterBody_head {s : Text} (h : Produces EnglishPatterns.chapterBody s) :
    ∃ c cs, s = c :: cs ∧ asciiLower c = 'c' ∧ isPySpace c = false := by
  obtain ⟨s1, s2, hs, ha, _⟩ := produces_seq_inv h
  have finish : ∀ (c : Char) (cs : Text), s1 = c :: cs → asciiLower c = asciiLower 'C' →
      ∃ c2 cs2, s = c2 :: cs2 ∧ asciiLower c2 = 'c' ∧ isPySpace c2 = false := by
    intro c cs hc hlow
    have hlow2 : asciiLower c = 'c' := by rw [hlow]; decide
    refine ⟨c, cs ++ s2, ?_, hlow2, head_not_ws_of_lower hlow2 (by decide)⟩
    rw [hs, hc]
    rfl
  rcases produces_alt_inv ha with h1 | h1
  · obtain ⟨c, cs, hc, hlow⟩ := produces_liti_head
      (show ("Chapter".toList : Text) = 'C' :: "hapter".toList from rfl) h1
    exact finish c cs hc hlow
  · rcases produces_alt_inv h1 with h2 | h2
    · obtain ⟨u, v, huv, hu, _⟩ := produces_seq_inv h2
      obtain ⟨c, cs, hc, hlow⟩ := produces_liti_head
        (show ("Ch".toList : Text) = 'C' :: "h".toList from rfl) hu
      refine finish c (cs ++ v) ?_ hlow
      rw [huv, hc]
      rfl
    · obtain ⟨u, v, huv, hu, _⟩ := produces_seq_inv h2
      obtain ⟨c, cs, hc, hlow⟩ := produces_liti_head
        (show ("Chap".toList : Text) = 'C' :: "hap".toList from rfl) hu
      refine finish c (cs ++ v) ?_ hlow
      rw [huv, hc]
      rfl

theorem en_sectionBody_head {s : Text} (h : Produces EnglishPatterns.sectionBody s) :
    ∃ c cs, s = c :: cs ∧ asciiLower c = 's' ∧ isPySpace c = false := by
  obtain ⟨s1, s2, hs, ha, _⟩ := produces_seq_inv h
  have finish : ∀ (c : Char) (cs : Text), s1 = c :: cs → asciiLower c = asciiLower 'S' →
      ∃ c2 cs2, s = c2 :: cs2 ∧ asciiLower c2 = 's' ∧ isPySpace c2 = false := by
    intro c cs hc hlow
    have hlow2 : asciiLower c = 's' := by rw [hlow]; decide
    refine ⟨c, cs ++ s2, ?_, hlow2, head_not_ws_of_lower hlow2 (by decide)⟩
    rw [hs, hc]
    rfl
  rcases produces_alt_inv ha with h1 | h1
  · obtain ⟨c, cs, hc, hlow⟩ := produces_liti_head
      (show ("Section".toList : Text) = 'S' :: "ection".toList from rfl) h1
    exact finish c cs hc hlow
  · obtain ⟨u, v, huv, hu, _⟩ := produces_seq_inv h1
    obtain ⟨c, cs, hc, hlow⟩ := produces_liti_head
      (show ("Sect".toList : Text) = 'S' :: "ect".toList from rfl) hu
    refine finish c (cs ++ v) ?_ hlow
    rw [huv, hc]
    rfl

theorem en_numberedBody_head {s : Text}
    (h : Produces EnglishPatterns.numberedSectionBody s) :
    ∃ c cs, s = c :: cs ∧ isAsciiDigit c = true ∧ isPySpace c = false := by
  obtain ⟨s1, s2, hs, ha, _⟩ := produces_seq_inv h
  obtain ⟨hne, hall⟩ := produces_plusC_inv ha
  cases hs1 : s1 with
  | nil => exact absurd hs1 hne
  | cons c cs =>
    have hd : isAsciiDigit c = true := hall c (by rw [hs1]; exact List.mem_cons_self c cs)
    exact ⟨c, cs ++ s2, by rw [hs, hs1]; rfl, hd, digit_not_ws hd⟩

/-- Head shape of a stripped chapter-match capture, per language. -/
def matchedChapterTitleHead (language : Lang) (title : Text) : Prop :=
  match language with
  | .chinese => ∃ c cs, title = c :: cs ∧ c ∈ cnChapterHeadChars
  | .english => ∃ c cs, title = c :: cs ∧ asciiLower c = 'c'

/-- Head shape of a stripped section-match capture, per language. -/
def matchedSectionTitleHead (language : Lang) (title : Text) : Prop :=
  match language with
  | .chinese => ∃ cs, title = '第' :: cs
  | .english => ∃ c cs, title = c :: cs ∧ (asciiLower c = 's' ∨ isAsciiDigit c = true)

theorem pyStrip_cons_of_head {c : Char} {cs : Text} (hc : isPySpace c = false) :
    ∃ t, pyStrip (c :: cs) = c :: t := by
  have := @pyStrip_sandwich [] [] cs c (by simp) hc
  simpa using this

theorem chapterFinditer_title_head {language : Lang} {content : Text} {m : MatchInfo}
    (hm : m ∈ chapterFinditer language content) :
    matchedChapterTitleHead language (pyStrip (group1 content m)) := by
  cases language with
  | chinese =>
    obtain ⟨j, hj⟩ := mem_scanAux _ _ m hm
    obtain ⟨w, b, w', hw, hprod, hg⟩ := tryAnchoredAt_group hj
    obtain ⟨c, cs, hb, hmem, hws⟩ := cn_chapterBody_head hprod
    rw [hb] at hg
    obtain ⟨t, ht⟩ := @pyStrip_sandwich w w' cs _ hw hws
    refine ⟨c, t, ?_, hmem⟩
    rw [hg, ht]
  | english =>
    obtain ⟨j, hj⟩ := mem_scanAux _ _ m hm
    obtain ⟨w, b, w', hw, hprod, hg⟩ := tryAnchoredAt_group hj
    obtain ⟨c, cs, hb, hlow, hws⟩ := en_chapterBody_head hprod
    rw [hb] at hg
    obtain ⟨t, ht⟩ := @pyStrip_sandwich w w' cs _ hw hws
    refine ⟨c, t, ?_, hlow⟩
    rw [hg, ht]

theorem sectionMatches_title_head {language : Lang} {content : Text} {m : MatchInfo}
    (hm : m ∈ sectionMatches language content) :
    matchedSectionTitleHead language (pyStrip (group1 content m)) := by
  cases language with
  | chinese =>
    obtain ⟨j, hj⟩ := mem_scanAux _ _ m hm
    have hprod := tryPlainAt_group hj
    obtain ⟨cs, hb⟩ := cn_sectionBody_head hprod
    rw [hb]
    obtain ⟨t, ht⟩ := @pyStrip_cons_of_head '第' cs (by decide)
    exact ⟨t, ht⟩
  | english =>
    simp only [sectionMatches] at hm
    split at hm
    · obtain ⟨j, hj⟩ := mem_scanAux _ _ m hm
      obtain ⟨w, b, w', hw, hprod, hg⟩ := tryAnchoredAt_group hj
      obtain ⟨c, cs, hb, hlow, hws⟩ := en_sectionBody_head hprod
      rw [hb] at hg
      obtain ⟨t, ht⟩ := @pyStrip_sandwich w w' cs _ hw hws
      refine ⟨c, t, ?_, Or.inl hlow⟩
      rw [hg, ht]
    · obtain ⟨j, hj⟩ := mem_scanAux _ _ m hm
      obtain ⟨w, b, w', hw, hprod, hg⟩ := tryAnchoredAt_group hj
      obtain ⟨c, cs, hb, hdig, hws⟩ := en_numberedBody_head hprod
      rw [hb] at hg
      obtain ⟨t, ht⟩ := @pyStrip_sandwich w w' cs _ hw hws
      refine ⟨c, t, ?_, Or.inr hdig⟩
      rw [hg, ht]

/-- Matches surviving validation are still matches of the chapter pattern. -/
theorem chapterMatchesOf_subset {content : Text} {language : Lang}
    {config : ParserConfig} {m : MatchInfo} (hm : m ∈ chapterMatchesOf content language config) :
    m ∈ chapterFinditer language content := by
  unfold chapterMatchesOf at hm
  split at hm
  · exact List.mem_of_mem_filter hm
  · exact hm

/-! #### De-duplication through the seen-title sets -/

theorem sectionsGo_mem {content : Text} {language : Lang} :
    ∀ (ms : List MatchInfo) (seen : List Text), ∀ sec ∈ sectionsGo content language seen ms,
      (∃ m ∈ ms, sec.title = pyStrip (group1 content m)) ∧ sec.title ∉ seen := by
  intro ms
  induction ms with
  | nil =>
    intro seen sec hsec
    simp [sectionsGo] at hsec
  | cons m rest ih =>
    intro seen sec hsec
    simp only [sectionsGo] at hsec
    split at hsec
    · rename_i hcond
      rcases List.mem_cons.mp hsec with hc | hc
      · subst hc
        exact ⟨⟨m, List.mem_cons_self m rest, rfl⟩, hcond.2⟩
      · obtain ⟨⟨m2, hm2, ht⟩, hnotin⟩ := ih _ sec hc
        refine ⟨⟨m2, List.mem_cons_of_mem m hm2, ht⟩, ?_⟩
        intro habs
        exact hnotin (List.mem_cons_of_mem _ habs)
    · obtain ⟨⟨m2, hm2, ht⟩, hnotin⟩ := ih _ sec hsec
      exact ⟨⟨m2, List.mem_cons_of_mem m hm2, ht⟩, hnotin⟩

theorem sectionsGo_nodup {content : Text} {language : Lang} :
    ∀ (ms : List MatchInfo) (seen : List Text),
      ((sectionsGo content language seen ms).map Section.title).Nodup := by
  intro ms
  induction ms with
  | nil =>
    intro seen
    simp [sectionsGo]
  | cons m rest ih =>
    intro seen
    simp only [sectionsGo]
    split
    · rename_i hcond
      simp only [List.map_cons, List.nodup_cons]
      refine ⟨?_, ih _⟩
      intro habs
      obtain ⟨sec, hsec, htit⟩ := List.mem_map.mp habs
      have := (sectionsGo_mem rest _ sec hsec).2
      rw [htit] at this
      exact this (List.mem_cons_self _ _)
    · exact ih _

theorem chaptersGo_mem {content : Text} {language : Lang} :
    ∀ (ms : List MatchInfo) (seen : List Text), ∀ ch ∈ chaptersGo content language seen ms,
      (∃ m ∈ ms, ch.title = pyStrip (group1 content m)) ∧ ch.title ∉ seen := by
  intro ms
  induction ms with
  | nil =>
    intro seen ch hch
    simp [chaptersGo] at hch
  | cons m rest ih =>
    intro seen ch hch
    simp only [chaptersGo] at hch
    split at hch
    · rename_i hcond
      split at hch
      · rcases List.mem_cons.mp hch with hc | hc
        · subst hc
          exact ⟨⟨m, List.mem_cons_self m rest, rfl⟩, hcond.2⟩
        · obtain ⟨⟨m2, hm2, ht⟩, hnotin⟩ := ih _ ch hc
          exact ⟨⟨m2, List.mem_cons_of_mem m hm2, ht⟩,
            fun habs => hnotin (List.mem_cons_of_mem _ habs)⟩
      · rcases List.mem_cons.mp hch with hc | hc
        · subst hc
          exact ⟨⟨m, List.mem_cons_self m rest, rfl⟩, hcond.2⟩
        · obtain ⟨⟨m2, hm2, ht⟩, hnotin⟩ := ih _ ch hc
          exact ⟨⟨m2, List.mem_cons_of_mem m hm2, ht⟩,
            fun habs => hnotin (List.mem_cons_of_mem _ habs)⟩
    · obtain ⟨⟨m2, hm2, ht⟩, hnotin⟩ := ih _ ch hch
      exact ⟨⟨m2, List.mem_cons_of_mem m hm2, ht⟩, hnotin⟩

theorem chaptersGo_nodup {content : Text} {language : Lang} :
    ∀ (ms : List MatchInfo) (seen : List Text),
      ((chaptersGo content language seen ms).map Chapter.title).Nodup := by
  intro ms
  induction ms with
  | nil =>
    intro seen
    simp [chaptersGo]
  | cons m rest ih =>
    intro seen
    simp only [chaptersGo]
    split
    · rename_i hcond
      split
      · simp only [List.map_cons, List.nodup_cons]
        refine ⟨?_, ih _⟩
        intro habs
        obtain ⟨ch, hch, htit⟩ := List.mem_map.mp habs
        have := (chaptersGo_mem rest _ ch hch).2
        rw [htit] at this
        exact this (List.mem_cons_self _ _)
      · simp only [List.map_cons, List.nodup_cons]
        refine ⟨?_, ih _⟩
        intro habs
        obtain ⟨ch, hch, htit⟩ := List.mem_map.mp habs
        have := (chaptersGo_mem rest _ ch hch).2
        rw [htit] at this
        exact this (List.mem_cons_self _ _)
    · exact ih _

theorem chaptersGo_title_ne_nil {content : Text} {language : Lang} :
    ∀ (ms : List MatchInfo) (seen : List Text), ∀ ch ∈ chaptersGo content language seen ms,
      ch.title ≠ [] := by
  intro ms
  induction ms with
  | nil =>
    intro seen ch hch
    simp [chaptersGo] at hch
  | cons m rest ih =>
    intro seen ch hch
    simp only [chaptersGo] at hch
    split at hch
    · rename_i hcond
      split at hch
      · rcases List.mem_cons.mp hch with hc | hc
        · subst hc
          exact hcond.1
        · exact ih _ ch hc
      · rcases List.mem_cons.mp hch with hc | hc
        · subst hc
          exact hcond.1
        · exact ih _ ch hc
    · exact ih _ ch hch

/-! #### Title uniqueness inside one call of the parsers -/

theorem sectionPrefaceTitle_ne_matched {language : Lang} {t : Text}
    (hhead : matchedSectionTitleHead language t) : sectionPrefaceTitle language ≠ t := by
  cases language with
  | chinese =>
    obtain ⟨cs, hcs⟩ := hhead
    rw [hcs]
    intro habs
    rw [show sectionPrefaceTitle Lang.chinese = '章' :: ('节' :: '序' :: '言' :: [])
      from by decide] at habs
    injection habs with h1 h2
    exact absurd h1 (by decide)
  | english =>
    obtain ⟨c, cs, hcs, hc⟩ := hhead
    rw [hcs]
    intro habs
    rw [show sectionPrefaceTitle Lang.english = 'C' :: "hapter Preface".toList
      from by decide] at habs
    injection habs with h1 h2
    rw [← h1] at hc
    rcases hc with hc | hc
    · exact absurd hc (by decide)
    · exact absurd hc (by decide)

theorem chapterPrefaceTitle_ne_matched {language : Lang} {t : Text}
    (hhead : matchedChapterTitleHead language t) : chapterPrefaceTitle language ≠ t := by
  cases language with
  | chinese =>
    obtain ⟨c, cs, hcs, hc⟩ := hhead
    rw [hcs]
    intro habs
    rw [show chapterPrefaceTitle Lang.chinese = '前' :: ('言' :: []) from by decide] at habs
    injection habs with h1 h2
    rw [← h1] at hc
    exact absurd hc (by decide)
  | english =>
    obtain ⟨c, cs, hcs, hc⟩ := hhead
    rw [hcs]
    intro habs
    rw [show chapterPrefaceTitle Lang.english = 'P' :: "reface".toList from by decide] at habs
    injection habs with h1 h2
    rw [← h1] at hc
    exact absurd hc (by decide)

theorem parse_sections_titles_nodup (content : Text) (language : Lang) :
    ((parse_sections_from_content content language).map Section.title).Nodup := by
  unfold parse_sections_from_content
  split
  · simp
  · rcases hms : sectionMatches language content with _ | ⟨m0, rest⟩
    · simp
    · rw [List.map_append]
      refine List.nodup_append.mpr ⟨?_, sectionsGo_nodup _ _, ?_⟩
      · unfold sectionPrefaceOf
        split <;> simp
      · intro t ht habs
        obtain ⟨sec, hsec, htit⟩ := List.mem_map.mp habs
        obtain ⟨⟨m, hmmem, hmt⟩, -⟩ := sectionsGo_mem (m0 :: rest) [] sec hsec
        have hmem2 : m ∈ sectionMatches language content := by rw [hms]; exact hmmem
        have hhead := sectionMatches_title_head hmem2
        rw [← hmt, htit] at hhead
        unfold sectionPrefaceOf at ht
        split at ht
        · rcases List.mem_map.mp ht with ⟨sec2, hsec2, htit2⟩
          rcases List.mem_singleton.mp hsec2 with hc
          subst hc
          rw [← htit2] at hhead
          exact sectionPrefaceTitle_ne_matched hhead rfl
        · simp at ht

theorem parse_chapters_titles_nodup (content : Text) (language : Lang)
    (config : ParserConfig) :
    ((parse_chapters_from_content content language config).map Chapter.title).Nodup := by
  unfold parse_chapters_from_content
  split
  · simp
  · rcases hms : chapterMatchesOf content language config with _ | ⟨m0, rest⟩
    · simp
    · rw [List.map_append]
      refine List.nodup_append.mpr ⟨?_, chaptersGo_nodup _ _, ?_⟩
      · unfold chapterPrefaceOf
        split
        · split <;> simp
        · simp
      · intro t ht habs
        obtain ⟨ch, hch, htit⟩ := List.mem_map.mp habs
        obtain ⟨⟨m, hmmem, hmt⟩, -⟩ := chaptersGo_mem (m0 :: rest) [] ch hch
        have hmem2 : m ∈ chapterMatchesOf content language config := by
          rw [hms]; exact hmmem
        have hhead := chapterFinditer_title_head (chapterMatchesOf_subset hmem2)
        rw [← hmt, htit] at hhead
        have hpreft : t = chapterPrefaceTitle language := by
          unfold chapterPrefaceOf at ht
          split at ht
          · split at ht
            · rcases List.mem_map.mp ht with ⟨ch2, hch2, htit2⟩
              rcases List.mem_singleton.mp hch2 with hc
              subst hc
              exact htit2.symm
            · rcases List.mem_map.mp ht with ⟨ch2, hch2, htit2⟩
              rcases List.mem_singleton.mp hch2 with hc
              subst hc
              exact htit2.symm
          · simp at ht
        rw [hpreft] at hhead
        exact chapterPrefaceTitle_ne_matched hhead rfl

theorem chapterPrefaceTitle_ne_nil (language : Lang) :
    chapterPrefaceTitle language ≠ [] := by
  cases language <;> decide

theorem parse_chapters_title_ne_nil (content : Text) (language : Lang)
    (config : ParserConfig) :
    ∀ ch ∈ parse_chapters_from_content content language config, ch.title ≠ [] := by
  intro ch hch
  unfold parse_chapters_from_content at hch
  split at hch
  · simp at hch
  · split at hch
    · simp at hch
    · rcases List.mem_append.mp hch with hpre | hgo
      · unfold chapterPrefaceOf at hpre
        split at hpre
        · split at hpre
          · rcases List.mem_singleton.mp hpre with hc
            subst hc
            exact chapterPrefaceTitle_ne_nil language
          · rcases List.mem_singleton.mp hpre with hc
            subst hc
            exact chapterPrefaceTitle_ne_nil language
        · simp at hpre
      · exact chaptersGo_title_ne_nil _ _ ch hgo

theorem chaptersGo_sections_nodup {content : Text} {language : Lang} :
    ∀ (ms : List MatchInfo) (seen : List Text), ∀ ch ∈ chaptersGo content language seen ms,
      ((ch.sections.map Section.title).Nodup) := by
  intro ms
  induction ms with
  | nil =>
    intro seen ch hch
    simp [chaptersGo] at hch
  | cons m rest ih =>
    intro seen ch hch
    simp only [chaptersGo] at hch
    split at hch
    · split at hch
      · rcases List.mem_cons.mp hch with hc | hc
        · subst hc
          exact parse_sections_titles_nodup _ language
        · exact ih _ ch hc
      · rcases List.mem_cons.mp hch with hc | hc
        · subst hc
          simp
        · exact ih _ ch hc
    · exact ih _ ch hch

theorem parse_chapters_sections_nodup (content : Text) (language : Lang)
    (config : ParserConfig) :
    ∀ ch ∈ parse_chapters_from_content content language config,
      ((ch.sections.map Section.title).Nodup) := by
  intro ch hch
  unfold parse_chapters_from_content at hch
  split at hch
  · simp at hch
  · split at hch
    · simp at hch
    · rcases List.mem_append.mp hch with hpre | hgo
      · unfold chapterPrefaceOf at hpre
        split at hpre
        · split at hpre
          · rcases List.mem_singleton.mp hpre with hc
            subst hc
            exact parse_sections_titles_nodup _ language
          · rcases List.mem_singleton.mp hpre with hc
            subst hc
            simp
        · simp at hpre
      · exact chaptersGo_sections_nodup _ _ ch hgo

/-! #### The merge pass preserves title uniqueness and section uniqueness -/

theorem modifyLast_map_title (ch : Chapter) :
    ∀ l : List Chapter,
      (modifyLast (mergeShort ch) l).map Chapter.title = l.map Chapter.title := by
  intro l
  induction l with
  | nil => rfl
  | cons c cs ih =>
    cases cs with
    | nil => simp [modifyLast, mergeShort]
    | cons c2 cs2 => simpa [modifyLast] using ih

theorem modifyLast_mem (f : Chapter → Chapter) :
    ∀ (l : List Chapter) (c : Chapter), c ∈ modifyLast f l →
      c ∈ l ∨ ∃ c', c' ∈ l ∧ c = f c' := by
  intro l
  induction l with
  | nil => intro c hc; simp [modifyLast] at hc
  | cons a cs ih =>
    intro c hc
    cases cs with
    | nil =>
      simp only [modifyLast, List.mem_singleton] at hc
      exact Or.inr ⟨a, List.mem_singleton.mpr rfl, hc⟩
    | cons a2 cs2 =>
      rcases List.mem_cons.mp hc with hc | hc
      · exact Or.inl (List.mem_cons.mpr (Or.inl hc))
      · rcases ih c hc with h | ⟨c', hc', he⟩
        · exact Or.inl (List.mem_cons_of_mem _ h)
        · exact Or.inr ⟨c', List.mem_cons_of_mem _ hc', he⟩

theorem vamAux_titles_nodup (language : Lang) (minLen : Nat) :
    ∀ (rest valid : List Chapter) (accC : Text) (accT : Option Text),
      ((rest.map Chapter.title).Nodup) →
      (∀ c ∈ rest, c.title ≠ []) →
      ((valid.map Chapter.title).Nodup) →
      (∀ t ∈ valid.map Chapter.title, t ∉ rest.map Chapter.title) →
      (accC ≠ [] → ∃ t, accT = some t ∧ t ≠ [] ∧
        t ∉ valid.map Chapter.title ∧ t ∉ rest.map Chapter.title) →
      ((vamAux language minLen rest valid accC accT).map Chapter.title).Nodup := by
  intro rest
  induction rest with
  | nil =>
    intro valid accC accT _ _ hvalid hdisj hacc
    by_cases h0 : accC = []
    · simp only [vamAux, h0]
      rw [if_neg (show ¬(([] : Text) ≠ []) by simp)]
      exact hvalid
    · obtain ⟨t, hT, htne, htv, -⟩ := hacc h0
      simp only [vamAux]
      rw [if_pos h0, List.map_append]
      refine List.nodup_append.mpr ⟨hvalid, by simp, ?_⟩
      intro x hx
      simp only [List.map_cons, List.map_nil, List.mem_singleton]
      intro hx2
      have hxt : x = t := by
        rw [hx2]
        show pyOrTitle accT language = t
        rw [hT]
        simp only [pyOrTitle]
        rw [if_neg htne]
      rw [hxt] at hx
      exact htv hx
  | cons ch rest ih =>
    intro valid accC accT hin htne hvalid hdisj hacc
    rw [List.map_cons, List.nodup_cons] at hin
    obtain ⟨hchnotin, hin⟩ := hin
    have hchne : ch.title ≠ [] := htne ch (List.mem_cons_self _ _)
    have htne' : ∀ c ∈ rest, c.title ≠ [] := fun c hc => htne c (List.mem_cons_of_mem _ hc)
    have hdisj' : ∀ t ∈ valid.map Chapter.title, t ∉ rest.map Chapter.title := by
      intro t ht
      have h2 := hdisj t ht
      rw [List.map_cons, List.mem_cons] at h2
      push_neg at h2
      exact h2.2
    have hdisjch : ∀ t ∈ valid.map Chapter.title, t ≠ ch.title := by
      intro t ht
      have h2 := hdisj t ht
      rw [List.map_cons, List.mem_cons] at h2
      push_neg at h2
      exact h2.1
    by_cases hlen : (pyStrip (totalContent ch)).length < minLen
    · by_cases hva : valid = [] ∧ accC = []
      · simp only [vamAux, if_pos hlen, if_pos hva]
        refine ih valid _ _ hin htne' hvalid hdisj' ?_
        intro _
        exact ⟨ch.title, rfl, hchne, by rw [hva.1]; simp, hchnotin⟩
      · by_cases hv : valid ≠ []
        · simp only [vamAux, if_pos hlen, if_neg hva, if_pos hv]
          refine ih (modifyLast (mergeShort ch) valid) accC accT hin htne' ?_ ?_ ?_
          · rw [modifyLast_map_title]; exact hvalid
          · rw [modifyLast_map_title]; exact hdisj'
          · intro h
            obtain ⟨t, hT, h1, h2, h3⟩ := hacc h
            refine ⟨t, hT, h1, ?_, ?_⟩
            · rw [modifyLast_map_title]; exact h2
            · rw [List.map_cons, List.mem_cons] at h3
              push_neg at h3
              exact h3.2
        · simp only [vamAux, if_pos hlen, if_neg hva, if_neg hv]
          have hv0 : valid = [] := by push_neg at hv; exact hv
          have hacc0 : accC ≠ [] := fun h0 => hva ⟨hv0, h0⟩
          refine ih valid _ accT hin htne' hvalid hdisj' ?_
          intro _
          obtain ⟨t, hT, h1, h2, h3⟩ := hacc hacc0
          refine ⟨t, hT, h1, h2, ?_⟩
          rw [List.map_cons, List.mem_cons] at h3
          push_neg at h3
          exact h3.2
    · by_cases h0 : accC = []
      · simp only [vamAux, if_neg hlen, h0]
        rw [if_neg (show ¬(([] : Text) ≠ []) by simp)]
        refine ih (valid ++ [ch]) [] accT hin htne' ?_ ?_ ?_
        · rw [List.map_append]
          refine List.nodup_append.mpr ⟨hvalid, by simp, ?_⟩
          intro x hx
          simp only [List.map_cons, List.map_nil, List.mem_singleton]
          exact hdisjch x hx
        · intro t ht
          rw [List.map_append, List.mem_append] at ht
          rcases ht with ht | ht
          · exact hdisj' t ht
          · simp only [List.map_cons, List.map_nil, List.mem_singleton] at ht
            rw [ht]
            exact hchnotin
        · intro h; exact absurd rfl h
      · simp only [vamAux, if_neg hlen]
        rw [if_pos h0]
        obtain ⟨t, hT, htne0, htv, htr⟩ := hacc h0
        rw [List.map_cons, List.mem_cons] at htr
        push_neg at htr
        obtain ⟨htch, htrest⟩ := htr
        have hflt : (flushChapter language accC accT).title = t := by
          show pyOrTitle accT language = t
          rw [hT]
          simp only [pyOrTitle]
          rw [if_neg htne0]
        refine ih (valid ++ [flushChapter language accC accT, ch]) [] none hin htne' ?_ ?_ ?_
        · rw [List.map_append]
          refine List.nodup_append.mpr ⟨hvalid, ?_, ?_⟩
          · simp only [List.map_cons, List.map_nil, hflt]
            simp [htch]
          · intro x hx hmem
            simp only [List.map_cons, List.map_nil, hflt, List.mem_cons,
              List.mem_singleton, List.not_mem_nil, or_false] at hmem
            rcases hmem with he | he
            · rw [he] at hx; exact htv hx
            · exact hdisjch x hx he
        · intro x hx
          rw [List.map_append, List.mem_append] at hx
          rcases hx with hx | hx
          · exact hdisj' x hx
          · simp only [List.map_cons, List.map_nil, hflt, List.mem_cons,
              List.mem_singleton, List.not_mem_nil, or_false] at hx
            rcases hx with hx | hx
            · rw [hx]; exact htrest
            · rw [hx]; exact hchnotin
        · intro h; exact absurd rfl h

theorem vamAux_sections_nodup (language : Lang) (minLen : Nat) :
    ∀ (rest valid : List Chapter) (accC : Text) (accT : Option Text),
      (∀ c ∈ rest, ((c.sections.map Section.title).Nodup)) →
      (∀ c ∈ valid, ((c.sections.map Section.title).Nodup)) →
      ∀ c ∈ vamAux language minLen rest valid accC accT,
        ((c.sections.map Section.title).Nodup) := by
  intro rest
  induction rest with
  | nil =>
    intro valid accC accT _ hv c hc
    by_cases h0 : accC = []
    · simp only [vamAux, h0] at hc
      rw [if_neg (show ¬(([] : Text) ≠ []) by simp)] at hc
      exact hv c hc
    · simp only [vamAux] at hc
      rw [if_pos h0] at hc
      rcases List.mem_append.mp hc with hc | hc
      · exact hv c hc
      · rw [List.mem_singleton.mp hc]
        simp [flushChapter]
  | cons ch rest ih =>
    intro valid accC accT hr hv c hc
    have hch := hr ch (List.mem_cons_self _ _)
    have hr' : ∀ c ∈ rest, ((c.sections.map Section.title).Nodup) :=
      fun c h => hr c (List.mem_cons_of_mem _ h)
    by_cases hlen : (pyStrip (totalContent ch)).length < minLen
    · by_cases hva : valid = [] ∧ accC = []
      · simp only [vamAux, if_pos hlen, if_pos hva] at hc
        exact ih valid _ _ hr' hv c hc
      · by_cases hvne : valid ≠ []
        · simp only [vamAux, if_pos hlen, if_neg hva, if_pos hvne] at hc
          refine ih (modifyLast (mergeShort ch) valid) accC accT hr' ?_ c hc
          intro c2 hc2
          rcases modifyLast_mem (mergeShort ch) valid c2 hc2 with h | ⟨c3, hc3, he⟩
          · exact hv c2 h
          · rw [he]
            show ((c3.sections.map Section.title).Nodup)
            exact hv c3 hc3
        · simp only [vamAux, if_pos hlen, if_neg hva, if_neg hvne] at hc
          exact ih valid _ accT hr' hv c hc
    · by_cases h0 : accC = []
      · simp only [vamAux, if_neg hlen, h0] at hc
        rw [if_neg (show ¬(([] : Text) ≠ []) by simp)] at hc
        refine ih (valid ++ [ch]) [] accT hr' ?_ c hc
        intro c2 hc2
        rcases List.mem_append.mp hc2 with h | h
        · exact hv c2 h
        · rw [List.mem_singleton.mp h]
          exact hch
      · simp only [vamAux, if_neg hlen] at hc
        rw [if_pos h0] at hc
        refine ih (valid ++ [flushChapter language accC accT, ch]) [] none hr' ?_ c hc
        intro c2 hc2
        rcases List.mem_append.mp hc2 with h | h
        · exact hv c2 h
        · rcases List.mem_cons.mp h with h | h
          · rw [h]
            simp [flushChapter]
          · rw [List.mem_singleton.mp h]
            exact hch

theorem validate_and_merge_titles_nodup (chapters : List Chapter) (language : Lang)
    (minLen : Nat) (hnd : ((chapters.map Chapter.title).Nodup))
    (hne : ∀ c ∈ chapters, c.title ≠ []) :
    (((validate_and_merge_chapters chapters language minLen).map Chapter.title).Nodup) := by
  unfold validate_and_merge_chapters
  split
  · exact hnd
  · exact vamAux_titles_nodup language minLen chapters [] [] none hnd hne (by simp)
      (by simp) (fun h => absurd rfl h)

theorem validate_and_merge_sections_nodup (chapters : List Chapter) (language : Lang)
    (minLen : Nat) (hsec : ∀ c ∈ chapters, ((c.sections.map Section.title).Nodup)) :
    ∀ c ∈ validate_and_merge_chapters chapters language minLen,
      ((c.sections.map Section.title).Nodup) := by
  unfold validate_and_merge_chapters
  split
  · exact hsec
  · exact vamAux_sections_nodup language minLen chapters [] [] none hsec (by simp)

theorem chaptersWithValidation_titles_nodup (content : Text) (language : Lang)
    (config : ParserConfig) :
    (((chaptersWithValidation content language config).map Chapter.title).Nodup) := by
  by_cases h : config.enable_length_validation = true
  · simp only [chaptersWithValidation]
    rw [if_pos h]
    exact validate_and_merge_titles_nodup _ language _
      (parse_chapters_titles_nodup content language config)
      (parse_chapters_title_ne_nil content language config)
  · simp only [chaptersWithValidation]
    rw [if_neg h]
    exact parse_chapters_titles_nodup content language config

theorem chaptersWithValidation_sections_nodup (content : Text) (language : Lang)
    (config : ParserConfig) :
    ∀ c ∈ chaptersWithValidation content language config,
      ((c.sections.map Section.title).Nodup) := by
  by_cases h : config.enable_length_validation = true
  · simp only [chaptersWithValidation]
    rw [if_pos h]
    exact validate_and_merge_sections_nodup _ language _
      (parse_chapters_sections_nodup content language config)
  · simp only [chaptersWithValidation]
    rw [if_neg h]
    exact parse_chapters_sections_nodup content language config

/-! #### Volume-level title uniqueness -/

theorem volumesGo_titles (content : Text) (language : Lang) (config : ParserConfig) :
    ∀ (ms : List MatchInfo) (seen : List Text),
      (∀ v ∈ volumesGo content language config seen ms, ∀ t, v.title = some t → t ∉ seen) ∧
      List.Pairwise (fun a b => ∀ t, a.title = some t → b.title ≠ some t)
        (volumesGo content language config seen ms) := by
  intro ms
  induction ms with
  | nil =>
    intro seen
    refine ⟨?_, ?_⟩
    · intro v hv
      simp [volumesGo] at hv
    · simp [volumesGo]
  | cons m rest ih =>
    intro seen
    simp only [volumesGo]
    split
    · rename_i hcond
      split
      · refine ⟨?_, ?_⟩
        · intro v hv t ht
          rcases List.mem_cons.mp hv with hc | hc
          · subst hc
            have ht2 : some (pyStrip (group1 content m)) = some t := ht
            rw [← Option.some.inj ht2]
            exact hcond.2
          · have h2 := (ih (pyStrip (group1 content m) :: seen)).1 v hc t ht
            intro habs
            exact h2 (List.mem_cons_of_mem _ habs)
        · refine List.pairwise_cons.mpr ⟨?_, (ih _).2⟩
          intro b hb t ht habs
          have ht2 : some (pyStrip (group1 content m)) = some t := ht
          have h2 := (ih (pyStrip (group1 content m) :: seen)).1 b hb t habs
          rw [← Option.some.inj ht2] at h2
          exact h2 (List.mem_cons_self _ _)
      · split
        · refine ⟨?_, ?_⟩
          · intro v hv t ht
            rcases List.mem_cons.mp hv with hc | hc
            · subst hc
              have ht2 : some (pyStrip (group1 content m)) = some t := ht
              rw [← Option.some.inj ht2]
              exact hcond.2
            · have h2 := (ih (pyStrip (group1 content m) :: seen)).1 v hc t ht
              intro habs
              exact h2 (List.mem_cons_of_mem _ habs)
          · refine List.pairwise_cons.mpr ⟨?_, (ih _).2⟩
            intro b hb t ht habs
            have ht2 : some (pyStrip (group1 content m)) = some t := ht
            have h2 := (ih (pyStrip (group1 content m) :: seen)).1 b hb t habs
            rw [← Option.some.inj ht2] at h2
            exact h2 (List.mem_cons_self _ _)
        · refine ⟨?_, (ih _).2⟩
          intro v hv t ht
          have h2 := (ih (pyStrip (group1 content m) :: seen)).1 v hv t ht
          intro habs
          exact h2 (List.mem_cons_of_mem _ habs)
    · exact ih seen

theorem volumesGo_chapters_ok (content : Text) (language : Lang) (config : ParserConfig) :
    ∀ (ms : List MatchInfo) (seen : List Text), ∀ v ∈ volumesGo content language config seen ms,
      ((v.chapters.map Chapter.title).Nodup) ∧
      ∀ ch ∈ v.chapters, ((ch.sections.map Section.title).Nodup) := by
  intro ms
  induction ms with
  | nil =>
    intro seen v hv
    simp [volumesGo] at hv
  | cons m rest ih =>
    intro seen v hv
    simp only [volumesGo] at hv
    split at hv
    · split at hv
      · rcases List.mem_cons.mp hv with hc | hc
        · subst hc
          exact ⟨chaptersWithValidation_titles_nodup _ language config,
            chaptersWithValidation_sections_nodup _ language config⟩
        · exact ih _ v hc
      · split at hv
        · rcases List.mem_cons.mp hv with hc | hc
          · subst hc
            refine ⟨by simp, ?_⟩
            intro ch hch
            rw [List.mem_singleton.mp hch]
            simp
          · exact ih _ v hc
        · exact ih _ v hv
    · exact ih _ v hv

theorem volumePrefaceOf_title_none (content : Text) (language : Lang)
    (config : ParserConfig) (m0 : MatchInfo) :
    ∀ v ∈ volumePrefaceOf content language config m0, v.title = none := by
  intro v hv
  unfold volumePrefaceOf at hv
  split at hv
  · split at hv
    · rw [List.mem_singleton.mp hv]
    · rw [List.mem_singleton.mp hv]
  · simp at hv

theorem volumePrefaceOf_chapters_ok (content : Text) (language : Lang)
    (config : ParserConfig) (m0 : MatchInfo) :
    ∀ v ∈ volumePrefaceOf content language config m0,
      ((v.chapters.map Chapter.title).Nodup) ∧
      ∀ ch ∈ v.chapters, ((ch.sections.map Section.title).Nodup) := by
  intro v hv
  unfold volumePrefaceOf at hv
  split at hv
  · split at hv
    · rw [List.mem_singleton.mp hv]
      exact ⟨chaptersWithValidation_titles_nodup _ language config,
        chaptersWithValidation_sections_nodup _ language config⟩
    · rw [List.mem_singleton.mp hv]
      refine ⟨by simp, ?_⟩
      intro ch hch
      rw [List.mem_singleton.mp hch]
      simp
  · simp at hv

theorem volumesOfAux_titles (content : Text) (language : Lang) (config : ParserConfig) :
    List.Pairwise (fun a b => ∀ t, a.title = some t → b.title ≠ some t)
      (volumesOfAux content language config) := by
  unfold volumesOfAux
  split
  · split
    · simp
    · simp
  · refine List.pairwise_append.mpr ⟨?_, (volumesGo_titles content language config _ []).2, ?_⟩
    · unfold volumePrefaceOf
      split
      · split
        · simp
        · simp
      · simp
    · intro a ha b hb t ht
      have := volumePrefaceOf_title_none content language config _ a ha
      rw [this] at ht
      exact absurd ht (by simp)

theorem volumesOfAux_chapters_ok (content : Text) (language : Lang)
    (config : ParserConfig) :
    ∀ v ∈ volumesOfAux content language config,
      ((v.chapters.map Chapter.title).Nodup) ∧
      ∀ ch ∈ v.chapters, ((ch.sections.map Section.title).Nodup) := by
  intro v hv
  unfold volumesOfAux at hv
  split at hv
  · split at hv
    · rw [List.mem_singleton.mp hv]
      exact ⟨chaptersWithValidation_titles_nodup _ language config,
        chaptersWithValidation_sections_nodup _ language config⟩
    · rw [List.mem_singleton.mp hv]
      refine ⟨by simp, ?_⟩
      intro ch hch
      rw [List.mem_singleton.mp hch]
      simp
  · rcases List.mem_append.mp hv with hc | hc
    · exact volumePrefaceOf_chapters_ok content language config _ v hc
    · exact volumesGo_chapters_ok content language config _ [] v hc

/-- C9: in every document returned by `parse_hierarchical_content`, no two
sibling volumes carry an identical non-`None` title, the chapter titles
within each volume are pairwise distinct, and the section titles within each
chapter are pairwise distinct (second occurrences of an already-seen title
at the same level are discarded by the seen-sets of the parsing loops and
the preface titles are distinct from every matched title). -/
theorem C9_title_dedup (content : Text) (config : ParserConfig) :
    List.Pairwise (fun a b => ∀ t, a.title = some t → b.title ≠ some t)
      (parse_hierarchical_content content config) ∧
    ∀ v ∈ parse_hierarchical_content content config,
      ((v.chapters.map Chapter.title).Nodup) ∧
      ∀ ch ∈ v.chapters, ((ch.sections.map Section.title).Nodup) := by
  constructor
  · unfold parse_hierarchical_content
    split
    · simp
    · unfold volumesOf
      split
      · simp
      · exact volumesOfAux_titles _ _ config
  · intro v hv
    unfold parse_hierarchical_content at hv
    split at hv
    · rw [List.mem_singleton.mp hv]
      refine ⟨by simp, ?_⟩
      intro ch hch
      rw [List.mem_singleton.mp hch]
      simp
    · unfold volumesOf at hv
      split at hv
      · rw [List.mem_singleton.mp hv]
        refine ⟨by simp, ?_⟩
        intro ch hch
        rw [List.mem_singleton.mp hch]
        simp
      · exact volumesOfAux_chapters_ok _ _ config v hv

end TxtToEpub
